import Mathlib

/-!
# MyRedis: the RESP codec, the append-only file and the command handlers

A shallow embedding of `resp.go`, `aof.go` and `handler.go`.

* A Go `string` / `[]byte` is a list of bytes (`GoString`).
* A `bufio.Reader` over a file or a connection is the list of bytes that are
  still unread; reading at the empty list is `io.EOF`.
* A Go function returning `(Value, error)` returns both components here as
  well, together with the unread rest of the stream.  A run-time panic of the
  Go program is a result of its own.
* The two global maps `SETs` and `HSETs` are the two fields of `Store`;
  a handler takes the store and returns the reply and the new store.
  The mutexes are not modelled: the embedding is sequential.
* `int` is `Int`; the only integers the program computes are lengths and
  counters, which never leave the 64 bit range.
* `make` with a length read from the input is checked against the allocation
  limit of the run time and the memory the process can get (`makeslice`);
  the buffers that grow with the bytes actually read are not limited.
-/

namespace MyRedis

/-! ## Go strings and the standard library functions the program calls -/

/-- A Go `string` or `[]byte`: a finite sequence of bytes. -/
abbrev GoString := List UInt8

/-- The bytes of an ASCII string literal of the Go source. -/
def lit (s : String) : GoString := s.toList.map (fun c => UInt8.ofNat c.toNat)

/-- The unread bytes behind a `bufio.Reader`. -/
abbrev Stream := List UInt8

/-- The `error` values that can reach the program: `io.EOF`,
`io.ErrUnexpectedEOF` and the two causes of a `*strconv.NumError`. -/
inductive GoError where
  | EOF
  | ErrUnexpectedEOF
  | ErrSyntax
  | ErrRange
  deriving DecidableEq, Repr

/-- Worker of `strconv.Itoa` on a natural number: the decimal digits, most
significant first, are pushed in front of `acc`.  The first argument bounds the
number of digits and is never exhausted when it exceeds `n`. -/
def natDigits : Nat → Nat → GoString → GoString
  | 0, _, acc => acc
  | fuel + 1, n, acc =>
    let acc1 := UInt8.ofNat (48 + n % 10) :: acc
    if n / 10 = 0 then acc1 else natDigits fuel (n / 10) acc1

/-- The Go library function `strconv.Itoa`: decimal digits, with a leading `-` for a negative
number. -/
def Itoa (i : Int) : GoString :=
  match i with
  | Int.ofNat n => natDigits (n + 1) n []
  | Int.negSucc n => 45 :: natDigits (n + 2) (n + 1) []

/-- The digit loop of `strconv.ParseUint(s, 10, 64)`: a byte that is not a
decimal digit is a syntax error, a value above `2^64 - 1` is a range error,
whichever comes first. -/
def parseUintLoop : GoString → Nat → Except GoError Nat
  | [], n => .ok n
  | c :: cs, n =>
    if 48 ≤ c.toNat ∧ c.toNat ≤ 57 then
      if 2 ^ 64 ≤ n * 10 + (c.toNat - 48) then .error .ErrRange
      else parseUintLoop cs (n * 10 + (c.toNat - 48))
    else .error .ErrSyntax

/-- The Go library function `strconv.ParseUint(s, 10, 64)`. -/
def ParseUint (s : GoString) : Except GoError Nat :=
  if s = [] then .error .ErrSyntax else parseUintLoop s 0

/-- The Go library function `strconv.ParseInt(s, 10, 64)`: an optional sign, then at least one
decimal digit; the value has to lie in `[-2^63, 2^63 - 1]`. -/
def ParseInt (s : GoString) : Except GoError Int :=
  match s with
  | [] => .error .ErrSyntax
  | c :: cs =>
    let neg : Bool := c = 45
    let s1 : GoString := if c = 43 ∨ c = 45 then cs else c :: cs
    match ParseUint s1 with
    | .error e => .error e
    | .ok un =>
      if neg = false ∧ 2 ^ 63 ≤ un then .error .ErrRange
      else if neg = true ∧ 2 ^ 63 < un then .error .ErrRange
      else .ok (if neg then -(un : Int) else (un : Int))

/-- The Go library function `io.ReadFull(r, buf)` with `len(buf) = len`: the bytes read, the
error and the unread rest.  An empty buffer reads nothing; end of stream
before the first byte is `io.EOF`, after it `io.ErrUnexpectedEOF`. -/
def ReadFull (s : Stream) (len : Nat) : GoString × Option GoError × Stream :=
  if len = 0 then ([], none, s)
  else if len ≤ s.length then (s.take len, none, s.drop len)
  else if s = [] then ([], some .EOF, [])
  else (s, some .ErrUnexpectedEOF, [])

/-! ## resp.go -/

/-- The type tag constant `STRING` of resp.go. -/
def STRING : UInt8 := 43
/-- The type tag constant `ERROR` of resp.go. -/
def ERROR : UInt8 := 45
/-- The type tag constant `INTEGER` of resp.go. -/
def INTEGER : UInt8 := 58
/-- The type tag constant `BULK` of resp.go. -/
def BULK : UInt8 := 36
/-- The type tag constant `ARRAY` of resp.go. -/
def ARRAY : UInt8 := 42

/-- The struct `Value` of resp.go, with its five fields in order. -/
inductive Value where
  | mk (typ : String) (str : GoString) (num : Int) (bulk : GoString) (array : List Value)

namespace Value

/-- Field `typ`. -/
def typ : Value → String
  | mk t _ _ _ _ => t
/-- Field `str`. -/
def str : Value → GoString
  | mk _ s _ _ _ => s
/-- Field `num`. -/
def num : Value → Int
  | mk _ _ n _ _ => n
/-- Field `bulk`. -/
def bulk : Value → GoString
  | mk _ _ _ b _ => b
/-- Field `array`. -/
def array : Value → List Value
  | mk _ _ _ _ a => a

/-- The zero value `Value{}`. -/
def zero : Value := mk "" [] 0 [] []

/-- The composite literal `Value{typ: "string", str: t}`. -/
def SimpleString (t : GoString) : Value := mk "string" t 0 [] []
/-- The composite literal `Value{typ: "error", str: t}`. -/
def Error (t : GoString) : Value := mk "error" t 0 [] []
/-- The composite literal `Value{typ: "bulk", bulk: b}`. -/
def BulkString (b : GoString) : Value := mk "bulk" [] 0 b []
/-- The composite literal `Value{typ: "null"}`. -/
def Null : Value := mk "null" [] 0 [] []
/-- The composite literal `Value{typ: "array", array: items}`. -/
def Array (items : List Value) : Value := mk "array" [] 0 [] items
/-- The composite literal `Value{typ: "integer", num: n}`; no function of the program builds
it. -/
def Integer (n : Int) : Value := mk "integer" [] n [] []

end Value

/-- Result of `readLine`: `(line, n, err)` and the unread rest. -/
structure LineResult where
  line : GoString
  n : Int
  err : Option GoError
  rest : Stream
  deriving DecidableEq

/-- The test `len(line) >= 2 && line[len(line)-2] == '\r' && line[len(line)-1] == '\n'`. -/
def endsWithCRLF (line : GoString) : Bool :=
  decide (2 ≤ line.length) && (line.get? (line.length - 2) == some 13)
    && (line.get? (line.length - 1) == some 10)

/-- The loop of `readLine`: `line` and `n` are the local variables on entry of
an iteration. -/
def readLineLoop : Stream → GoString → Int → LineResult
  | [], _, _ => ⟨[], 0, some .EOF, []⟩
  | b :: rest, line, n =>
    let n1 := n + 1
    let line1 := line ++ [b]
    if endsWithCRLF line1 then ⟨line1.take (line1.length - 2), n1, none, rest⟩
    else readLineLoop rest line1 n1

/-- Method `Resp.readLine`. -/
def readLine (s : Stream) : LineResult := readLineLoop s [] 0

/-- Result of `readInteger`: `(x, n, err)` and the unread rest. -/
structure IntResult where
  x : Int
  n : Int
  err : Option GoError
  rest : Stream
  deriving DecidableEq

/-- Method `Resp.readInteger`. -/
def readInteger (s : Stream) : IntResult :=
  let r := readLine s
  match r.err with
  | some e => ⟨0, r.n, some e, r.rest⟩
  | none =>
    match ParseInt r.line with
    | .error e => ⟨0, r.n, some e, r.rest⟩
    | .ok i64 => ⟨i64, r.n, none, r.rest⟩

/-- The constant `maxAlloc` of the Go run time on a 64 bit platform: the
largest number of bytes one allocation may have. -/
def maxAlloc : Nat := 2 ^ 48

/-- The size `unsafe.Sizeof(Value{})` of the struct `Value` on a 64 bit platform: three
strings of 16 bytes, an `int` of 8 bytes and a slice header of 24 bytes. -/
def sizeofValue : Nat := 80

/-- The Go run time function `makeslice` behind `make([]T, length)` for an element type of
`elemSize` bytes: `true` when the call returns a slice.  It panics (`makeslice:
len out of range`) for a negative length and for more than `maxAlloc` bytes,
and the process ends (`fatal error: out of memory`) when the bytes asked for
exceed `memory`, the number of bytes the process can still get. -/
def makeslice (memory elemSize : Nat) (length : Int) : Bool :=
  decide (0 ≤ length) && decide (length.toNat * elemSize ≤ maxAlloc)
    && decide (length.toNat * elemSize ≤ memory)

/-- What a call of `Resp.Read` does: it returns `(Value, error)` and leaves
`rest` unread, or the process ends in a panic or a fatal error of the Go run
time, or the recursion bound of the embedding is used up (which `Resp.Read`
excludes, see `ReadN_fuel`). -/
inductive Outcome where
  | ret (v : Value) (err : Option GoError) (rest : Stream)
  | runtimePanic
  | outOfFuel

/-- Method `Resp.readBulk` in a process that can still get `memory` bytes.  The
buffer `make([]byte, length)` is allocated before the first payload byte is
read. -/
def readBulk (memory : Nat) (s : Stream) : Outcome :=
  let r := readInteger s
  match r.err with
  | some e => .ret (Value.mk "bulk" [] 0 [] []) (some e) r.rest
  | none =>
    if makeslice memory 1 r.x = false then .runtimePanic
    else
      match ReadFull r.rest r.x.toNat with
      | (_, some e, s2) => .ret (Value.mk "bulk" [] 0 [] []) (some e) s2
      | (bulk, none, s2) =>
        let l := readLine s2
        match l.err with
        | some e => .ret (Value.mk "bulk" [] 0 bulk []) (some e) l.rest
        | none => .ret (Value.mk "bulk" [] 0 bulk []) none l.rest

/-- The `for` loop of `readArray`, `k` iterations to go: `acc` holds the
elements assigned so far, the other `k` slots of `v.array` still hold
`Value{}`.  `read` is the recursive call `r.Read()`. -/
def readArrayLoop (read : Stream → Outcome) : Nat → List Value → Stream → Outcome
  | 0, acc, s => .ret (Value.mk "array" [] 0 [] acc) none s
  | k + 1, acc, s =>
    match read s with
    | .ret val none s1 => readArrayLoop read k (acc ++ [val]) s1
    | .ret _ (some e) s1 =>
      .ret (Value.mk "array" [] 0 [] (acc ++ List.replicate (k + 1) Value.zero)) (some e) s1
    | .runtimePanic => .runtimePanic
    | .outOfFuel => .outOfFuel

/-- Method `Resp.readArray` in a process that can still get `memory` bytes.  The
slice `make([]Value, length)` is allocated before the first item is read. -/
def readArray (memory : Nat) (read : Stream → Outcome) (s : Stream) : Outcome :=
  let r := readInteger s
  match r.err with
  | some e => .ret (Value.mk "array" [] 0 [] []) (some e) r.rest
  | none =>
    if makeslice memory sizeofValue r.x = false then .runtimePanic
    else readArrayLoop read r.x.toNat [] r.rest

/-- Method `Resp.Read` with a bound on the depth of the recursion through
`readArray`.  The message printed in the `default` case is not modelled. -/
def Resp.ReadN (memory : Nat) : Nat → Stream → Outcome
  | 0, _ => .outOfFuel
  | _ + 1, [] => .ret Value.zero (some .EOF) []
  | fuel + 1, t :: rest =>
    if t = ARRAY then readArray memory (Resp.ReadN memory fuel) rest
    else if t = BULK then readBulk memory rest
    else .ret Value.zero none rest

/-- Method `Resp.Read` on a reader with the bytes `s` unread, in a process that
can still get `memory` bytes.  Every nested call consumes its tag byte first,
so the depth never exceeds the length. -/
def Resp.Read (memory : Nat) (s : Stream) : Outcome := Resp.ReadN memory (s.length + 1) s

mutual
/-- Method `Value.Marshal` with `marshalArray`, `marshalBulk`, `marshalString`,
`marshalError` and `marshalNull` in place. -/
def Value.Marshal : Value → GoString
  | .mk typ str _ bulk array =>
    if typ = "array" then
      [ARRAY] ++ Itoa (array.length : Int) ++ [13, 10] ++ marshalItems array
    else if typ = "bulk" then
      [BULK] ++ Itoa (bulk.length : Int) ++ [13, 10] ++ bulk ++ [13, 10]
    else if typ = "string" then [STRING] ++ str ++ [13, 10]
    else if typ = "error" then [ERROR] ++ str ++ [13, 10]
    else if typ = "null" then lit "$-1\r\n"
    else []
/-- The loop of `marshalArray` over `v.array`. -/
def marshalItems : List Value → GoString
  | [] => []
  | v :: vs => v.Marshal ++ marshalItems vs
end

/-! ## aof.go -/

/-- What a call of `Aof.Read` does: it returns an `error` with the callback's
state `st`, or the process ends inside `resp.Read`. -/
inductive AofOutcome (σ : Type) where
  | ret (err : Option GoError) (st : σ)
  | runtimePanic
  | outOfFuel

/-- Method `Aof.Read` on a file with content `file`; the callback acts on a state
`σ`.  Every path through the body of the `for` statement leaves it (`break`
on `io.EOF`, `return err` otherwise), so the body runs once. -/
def Aof.Read {σ : Type} (memory : Nat) (file : Stream) (callback : Value → σ → σ) (st : σ) :
    AofOutcome σ :=
  match Resp.Read memory file with
  | .ret value err _ =>
    let st1 := if err = none then callback value st else st
    if err = some .EOF then .ret none st1
    else .ret err st1
  | .runtimePanic => .runtimePanic
  | .outOfFuel => .outOfFuel

/-! ## Go maps -/

/-- The loop behind `m[k]` on the entries of a map. -/
def lookupEntry {V : Type} (k : GoString) : List (GoString × V) → Option V
  | [] => none
  | e :: es => if e.1 = k then some e.2 else lookupEntry k es

/-- A Go `map[string]V`: finitely many entries with pairwise different keys.
The order of the list carries no meaning; `range` does not follow it (see
`RangeOrder`). -/
structure GoMap (V : Type) where
  entries : List (GoString × V)
  nodup : (entries.map Prod.fst).Nodup

namespace GoMap

/-- The empty map literal `map[string]V{}`. -/
def empty {V : Type} : GoMap V := ⟨[], List.nodup_nil⟩

/-- The lookup `v, ok := m[k]`: `some v` when `ok`. -/
def get? {V : Type} (m : GoMap V) (k : GoString) : Option V := lookupEntry k m.entries

/-- The builtin `delete(m, k)`: no entry with the key `k` is left. -/
def delete {V : Type} (m : GoMap V) (k : GoString) : GoMap V :=
  ⟨m.entries.filter (fun e => decide (e.1 ≠ k)),
    m.nodup.sublist ((List.filter_sublist m.entries).map Prod.fst)⟩

/-- The assignment `m[k] = v`: the entry `(k, v)` takes the place of the entry
that `k` had, if any. -/
def set {V : Type} (m : GoMap V) (k : GoString) (v : V) : GoMap V :=
  ⟨(k, v) :: (m.delete k).entries,
    List.nodup_cons.2 ⟨by simp [delete, List.mem_filter], (m.delete k).nodup⟩⟩

/-- The builtin `len(m)`. -/
def len {V : Type} (m : GoMap V) : Nat := m.entries.length

/-- The keys of the map. -/
def keys {V : Type} (m : GoMap V) : List GoString := m.entries.map Prod.fst

end GoMap

/-- The order in which a `range` statement visits the entries of a map.  Go
leaves it unspecified, so the handlers take it as a parameter. -/
abbrev RangeOrder := GoMap GoString → List (GoString × GoString)

/-- A `range` statement visits every entry of the map once. -/
def RangeOrder.Valid (range : RangeOrder) : Prop := ∀ m, (range m).Perm m.entries

/-! ## handler.go -/

/-- The global variables `SETs` and `HSETs`. -/
structure Store where
  SETs : GoMap GoString
  HSETs : GoMap (GoMap GoString)

/-- The stores at process start. -/
def Store.init : Store := ⟨GoMap.empty, GoMap.empty⟩

/-- The reply `ERR wrong number of arguments for '<name>' command`. -/
def wrongArgs (name : String) : Value :=
  Value.Error (lit ("ERR wrong number of arguments for \x27" ++ name ++ "\x27 command"))

/-- Handler `ping`. -/
def ping (args : List Value) (st : Store) : Value × Store :=
  match args with
  | [] => (Value.SimpleString (lit "PONG"), st)
  | a0 :: _ => (Value.SimpleString a0.bulk, st)

/-- Handler `set`. -/
def set (args : List Value) (st : Store) : Value × Store :=
  match args with
  | [a0, a1] => (Value.SimpleString (lit "OK"), { st with SETs := st.SETs.set a0.bulk a1.bulk })
  | _ => (wrongArgs "set", st)

/-- Handler `get`. -/
def get (args : List Value) (st : Store) : Value × Store :=
  match args with
  | [a0] =>
    match st.SETs.get? a0.bulk with
    | none => (Value.Null, st)
    | some value => (Value.BulkString value, st)
  | _ => (wrongArgs "get", st)

/-- Handler `hset`. -/
def hset (args : List Value) (st : Store) : Value × Store :=
  match args with
  | [a0, a1, a2] =>
    let hsets1 :=
      match st.HSETs.get? a0.bulk with
      | none => st.HSETs.set a0.bulk GoMap.empty
      | some _ => st.HSETs
    let inner := (hsets1.get? a0.bulk).getD GoMap.empty
    (Value.SimpleString (lit "OK"),
      { st with HSETs := hsets1.set a0.bulk (inner.set a1.bulk a2.bulk) })
  | _ => (wrongArgs "hset", st)

/-- Handler `hget`.  Indexing the nil map that `HSETs[hash]` yields for an
absent hash gives `ok = false`. -/
def hget (args : List Value) (st : Store) : Value × Store :=
  match args with
  | [a0, a1] =>
    match ((st.HSETs.get? a0.bulk).getD GoMap.empty).get? a1.bulk with
    | none => (Value.Null, st)
    | some value => (Value.BulkString value, st)
  | _ => (wrongArgs "hget", st)

/-- The `range` loop of `hgetall`, over the entries in the order visited. -/
def hgetallLoop : List (GoString × GoString) → List Value → List Value
  | [], values => values
  | e :: es, values =>
    hgetallLoop es ((values ++ [Value.BulkString e.1]) ++ [Value.BulkString e.2])

/-- Handler `hgetall`. -/
def hgetall (range : RangeOrder) (args : List Value) (st : Store) : Value × Store :=
  match args with
  | [a0] =>
    match st.HSETs.get? a0.bulk with
    | none => (Value.Null, st)
    | some value => (Value.Array (hgetallLoop (range value) []), st)
  | _ => (wrongArgs "hgetall", st)

/-- One of the two `for _, arg := range args` loops of `del`, on either map. -/
def delLoop {V : Type} : List Value → GoMap V → Int → GoMap V × Int
  | [], m, deleted => (m, deleted)
  | arg :: rest, m, deleted =>
    match m.get? arg.bulk with
    | some _ => delLoop rest (m.delete arg.bulk) (deleted + 1)
    | none => delLoop rest m deleted

/-- Handler `del`. -/
def del (args : List Value) (st : Store) : Value × Store :=
  if args.length = 0 then (wrongArgs "del", st)
  else
    let r1 := delLoop args st.SETs 0
    let r2 := delLoop args st.HSETs r1.2
    (Value.SimpleString (Itoa r2.2), ⟨r1.1, r2.1⟩)

/-! ## main.go -/

/-- The Go library function `strings.ToUpper`.  On a string of ASCII bytes it
maps `a`..`z` to `A`..`Z`; on any other string it maps the runes through
`unicode.ToUpper`, which is the parameter `unicodeUpper`. -/
def ToUpper (unicodeUpper : GoString → GoString) (s : GoString) : GoString :=
  if s.all (fun c => decide (c.toNat < 128)) then
    s.map (fun c => if 97 ≤ c.toNat ∧ c.toNat ≤ 122 then UInt8.ofNat (c.toNat - 32) else c)
  else unicodeUpper s

/-- The map `Handlers` of handler.go: the lookup `handler, ok := Handlers[command]`. -/
def Handlers (range : RangeOrder) (command : GoString) :
    Option (List Value → Store → Value × Store) :=
  if command = lit "PING" then some ping
  else if command = lit "SET" then some set
  else if command = lit "GET" then some get
  else if command = lit "HSET" then some hset
  else if command = lit "HGET" then some hget
  else if command = lit "HGETALL" then some (hgetall range)
  else if command = lit "DEL" then some del
  else none

/-- What the loop of `main` works on: the two stores, the bytes written to the
connection so far, and the content of the append-only file on disk. -/
structure Process where
  store : Store
  written : GoString
  aofFile : GoString

/-- The body of the `for` loop of `main` from the point where `resp.Read()` has
returned `value` with a nil error.  Nothing in main.go opens, reads or writes
the append-only file (there is no call of `NewAof`, `Aof.Read` or `Aof.Write`),
so `aofFile` is handed on as it is. -/
def mainBody (unicodeUpper : GoString → GoString) (range : RangeOrder) (value : Value)
    (p : Process) : Process :=
  if value.typ ≠ "array" then p
  else
    match value.array with
    | [] => p
    | first :: args =>
      let command := ToUpper unicodeUpper first.bulk
      match Handlers range command with
      | none => { p with written := p.written ++ (Value.SimpleString []).Marshal }
      | some handler =>
        let result := handler args p.store
        { p with store := result.2, written := p.written ++ result.1.Marshal }

/-- The loop of `main` over the requests that `resp.Read()` returns one after
another without error. -/
def mainLoop (unicodeUpper : GoString → GoString) (range : RangeOrder) :
    List Value → Process → Process
  | [], p => p
  | value :: values, p => mainLoop unicodeUpper range values (mainBody unicodeUpper range value p)

/-- The process when `main` starts with the append-only file `file` on disk:
the stores are the empty maps of their declarations, and `main` does not
read the file. -/
def Process.start (file : GoString) : Process := ⟨Store.init, [], file⟩

/-! ## Notions the statements below use -/

/-- The keys that the map `before` holds and the map `after` does not hold:
the keys removed in between. -/
def removedKeys {V : Type} (before after : GoMap V) : List GoString :=
  before.keys.filter (fun k => (after.get? k).isNone)

/-- The number a digit string denotes when the digits read so far denote `a`. -/
def digitsValue (ds : GoString) (a : Nat) : Nat :=
  ds.foldl (fun a c => a * 10 + (c.toNat - 48)) a

/-- The values the reader can give back in a process that can still get
`memory` bytes: bulk strings and arrays of such values, nested arbitrarily,
built as `readBulk` and `readArray` build them (the fields not in use are
zero), with lengths for which `make` returns a slice, as the lengths of the
values held in memory are. -/
inductive Value.BulkTree (memory : Nat) : Value → Prop where
  | bulk (b : GoString) (hb : makeslice memory 1 (b.length : Int) = true) :
      Value.BulkTree memory (Value.BulkString b)
  | array (items : List Value) (hl : makeslice memory sizeofValue (items.length : Int) = true)
      (hi : ∀ v ∈ items, Value.BulkTree memory v) : Value.BulkTree memory (Value.Array items)

/-- Whether a CR directly followed by an LF occurs in the bytes. -/
def hasCRLF : GoString → Bool
  | [] => false
  | [_] => false
  | a :: b :: t => (a == 13 && b == 10) || hasCRLF (b :: t)

/-- A process that can still get 2^30 bytes, for the examples. -/
def oneGiB : Nat := 2 ^ 30

/-- The callback that appends the value it is called on to a list: the state
is the list of the calls made so far. -/
def record (value : Value) (calls : List Value) : List Value := calls ++ [value]

/-- A bulk string argument with the bytes of an ASCII literal. -/
def arg (s : String) : Value := Value.BulkString (lit s)

/-- The request `SET a 1`, then `HSET b f 1`, on the stores at process start. -/
def storeAB : Store :=
  (hset [arg "b", arg "f", arg "1"] (set [arg "a", arg "1"] Store.init).2).2

/-! ## Lemmas on Go maps -/

theorem lookupEntry_filter_ne {V : Type} (k k1 : GoString) (es : List (GoString × V))
    (hk : k ≠ k1) :
    lookupEntry k1 (es.filter (fun e => decide (e.1 ≠ k))) = lookupEntry k1 es := by
  induction es with
  | nil => rfl
  | cons e es ih =>
    by_cases h : e.1 = k
    · have h1 : ¬ e.1 = k1 := fun h2 => hk (h.symm.trans h2)
      rw [List.filter_cons_of_neg (by simp [h]), ih, lookupEntry, if_neg h1]
    · rw [List.filter_cons_of_pos (by simp [h]), lookupEntry, lookupEntry, ih]

theorem GoMap.get?_set_self {V : Type} (m : GoMap V) (k : GoString) (v : V) :
    (m.set k v).get? k = some v := by
  simp [GoMap.get?, GoMap.set, lookupEntry]

theorem GoMap.get?_set_ne {V : Type} (m : GoMap V) (k k1 : GoString) (v : V) (hk : k ≠ k1) :
    (m.set k v).get? k1 = m.get? k1 := by
  rw [GoMap.get?, GoMap.set, lookupEntry, if_neg hk]
  exact lookupEntry_filter_ne k k1 m.entries hk

theorem GoMap.get?_empty {V : Type} (k : GoString) : (GoMap.empty : GoMap V).get? k = none := rfl

/-! ## `strconv.Itoa` writes the decimal representation -/

theorem digitChar_byte (d : Nat) (hd : d < 10) :
    UInt8.ofNat (Nat.digitChar d).toNat = UInt8.ofNat (48 + d) := by
  interval_cases d <;> rfl

theorem natDigits_eq_toDigitsCore (fuel n : Nat) (ds : List Char) :
    natDigits fuel n (ds.map (fun c => UInt8.ofNat c.toNat)) =
      (Nat.toDigitsCore 10 fuel n ds).map (fun c => UInt8.ofNat c.toNat) := by
  induction fuel generalizing n ds with
  | zero => rfl
  | succ fuel ih =>
    simp only [natDigits, Nat.toDigitsCore]
    rw [← digitChar_byte (n % 10) (Nat.mod_lt _ (by decide))]
    split
    · rfl
    · exact ih (n / 10) (Nat.digitChar (n % 10) :: ds)

theorem Itoa_eq_repr (n : Nat) : Itoa (n : Int) = lit (Nat.repr n) :=
  natDigits_eq_toDigitsCore (n + 1) n []

/-! ## SET and GET -/

/-- C3. `set` on two arguments replies `+OK` and stores the second argument's
bytes under the first one's, whatever the store held before, so that `get` of
that key replies the bulk string of these bytes; `get` of a key that the
string store does not hold replies the null value. -/
theorem set_then_get (st : Store) (k v : Value) :
    (set [k, v] st).1 = Value.SimpleString (lit "OK") ∧
    (get [k] (set [k, v] st).2).1 = Value.BulkString v.bulk ∧
    (∀ (st1 : Store) (a : Value), st1.SETs.get? a.bulk = none → (get [a] st1).1 = Value.Null) := by
  refine ⟨rfl, ?_, ?_⟩
  · simp only [set, get, GoMap.get?_set_self]
  · intro st1 a h
    simp only [get, h]

/-- Witness of C3: on the start-up store, `SET k v` then `GET k` gives `v`, and
`GET` of a key never set gives null. -/
theorem set_then_get_witness :
    (get [Value.BulkString (lit "k")]
        (set [Value.BulkString (lit "k"), Value.BulkString (lit "v")] Store.init).2).1
      = Value.BulkString (lit "v") ∧
    (get [Value.BulkString (lit "absent")] Store.init).1 = Value.Null :=
  ⟨(set_then_get Store.init (Value.BulkString (lit "k")) (Value.BulkString (lit "v"))).2.1,
    (set_then_get Store.init Value.zero Value.zero).2.2 Store.init
      (Value.BulkString (lit "absent")) rfl⟩

/-! ## HSET and HGET -/

/-- C5. `hset` on three arguments replies `+OK`; afterwards the hash store holds
the hash (created when it was absent) with the field set to the value, and
`hget` of that hash and field replies the bulk string of the value.  `hget`
replies the null value whenever the hash is absent or has no such field. -/
theorem hset_then_hget (st : Store) (h f v : Value) :
    (hset [h, f, v] st).1 = Value.SimpleString (lit "OK") ∧
    (∃ m, (hset [h, f, v] st).2.HSETs.get? h.bulk = some m ∧ m.get? f.bulk = some v.bulk) ∧
    (hget [h, f] (hset [h, f, v] st).2).1 = Value.BulkString v.bulk ∧
    (∀ (st1 : Store) (a b : Value),
      (st1.HSETs.get? a.bulk = none ∨
        ∃ m, st1.HSETs.get? a.bulk = some m ∧ m.get? b.bulk = none) →
      (hget [a, b] st1).1 = Value.Null) := by
  refine ⟨rfl, ?_, ?_, ?_⟩
  · exact ⟨_, GoMap.get?_set_self _ _ _, GoMap.get?_set_self _ _ _⟩
  · simp only [hset, hget, GoMap.get?_set_self, Option.getD_some]
  · intro st1 a b hab
    rcases hab with hn | ⟨m, hm, hf⟩
    · simp only [hget, hn, Option.getD_none, GoMap.get?_empty]
    · simp only [hget, hm, Option.getD_some, hf]

/-- Witness of C5: `HSET h f v` on the start-up store, then `HGET h f`, `HGET h missing`
and `HGET` of a hash never set. -/
theorem hset_then_hget_witness :
    (hget [Value.BulkString (lit "h"), Value.BulkString (lit "f")]
        (hset [Value.BulkString (lit "h"), Value.BulkString (lit "f"),
          Value.BulkString (lit "v")] Store.init).2).1 = Value.BulkString (lit "v") ∧
    (hget [Value.BulkString (lit "nohash"), Value.BulkString (lit "f")] Store.init).1
      = Value.Null :=
  ⟨(hset_then_hget Store.init (Value.BulkString (lit "h")) (Value.BulkString (lit "f"))
      (Value.BulkString (lit "v"))).2.2.1,
    (hset_then_hget Store.init Value.zero Value.zero Value.zero).2.2.2 Store.init
      (Value.BulkString (lit "nohash")) (Value.BulkString (lit "f")) (Or.inl rfl)⟩

/-! ## Arity errors -/

/-- C7. Each of `set`, `get`, `hset`, `hget`, `hgetall` and `del`, called with
a number of arguments that differs from its arity (2, 1, 3, 2, 1, and at least
1 for `del`), replies the error `ERR wrong number of arguments for '<name>'
command` and returns both stores as they were. -/
theorem arity_errors (range : RangeOrder) (args : List Value) (st : Store) :
    (args.length ≠ 2 → set args st = (wrongArgs "set", st)) ∧
    (args.length ≠ 1 → get args st = (wrongArgs "get", st)) ∧
    (args.length ≠ 3 → hset args st = (wrongArgs "hset", st)) ∧
    (args.length ≠ 2 → hget args st = (wrongArgs "hget", st)) ∧
    (args.length ≠ 1 → hgetall range args st = (wrongArgs "hgetall", st)) ∧
    (¬ 1 ≤ args.length → del args st = (wrongArgs "del", st)) := by
  refine ⟨?_, ?_, ?_, ?_, ?_, ?_⟩
  · intro h
    match args, h with
    | [], _ => rfl
    | [_], _ => rfl
    | [_, _], h => exact absurd rfl h
    | _ :: _ :: _ :: _, _ => rfl
  · intro h
    match args, h with
    | [], _ => rfl
    | [_], h => exact absurd rfl h
    | _ :: _ :: _, _ => rfl
  · intro h
    match args, h with
    | [], _ => rfl
    | [_], _ => rfl
    | [_, _], _ => rfl
    | [_, _, _], h => exact absurd rfl h
    | _ :: _ :: _ :: _ :: _, _ => rfl
  · intro h
    match args, h with
    | [], _ => rfl
    | [_], _ => rfl
    | [_, _], h => exact absurd rfl h
    | _ :: _ :: _ :: _, _ => rfl
  · intro h
    match args, h with
    | [], _ => rfl
    | [_], h => exact absurd rfl h
    | _ :: _ :: _, _ => rfl
  · intro h
    match args, h with
    | [], _ => rfl
    | _ :: _, h => exact absurd (Nat.succ_le_succ (Nat.zero_le _)) h

/-- Witness of C7: `SET onlykey`, `GET a b`, `HSET h f`, `HGET h`, `HGETALL` and `DEL`
without argument on a store that holds a key; the error text is spelled out for `set`. -/
theorem arity_errors_witness :
    set [Value.BulkString (lit "onlykey")]
        (set [Value.BulkString (lit "k"), Value.BulkString (lit "v")] Store.init).2
      = (Value.Error (lit "ERR wrong number of arguments for \x27set\x27 command"),
        (set [Value.BulkString (lit "k"), Value.BulkString (lit "v")] Store.init).2) ∧
    get [Value.BulkString (lit "a"), Value.BulkString (lit "b")] Store.init
      = (wrongArgs "get", Store.init) ∧
    hset [Value.BulkString (lit "h"), Value.BulkString (lit "f")] Store.init
      = (wrongArgs "hset", Store.init) ∧
    hget [Value.BulkString (lit "h")] Store.init = (wrongArgs "hget", Store.init) ∧
    hgetall GoMap.entries [] Store.init = (wrongArgs "hgetall", Store.init) ∧
    del [] Store.init = (wrongArgs "del", Store.init) :=
  ⟨(arity_errors GoMap.entries [Value.BulkString (lit "onlykey")]
      (set [Value.BulkString (lit "k"), Value.BulkString (lit "v")] Store.init).2).1 (by decide),
    (arity_errors GoMap.entries [Value.BulkString (lit "a"), Value.BulkString (lit "b")]
      Store.init).2.1 (by decide),
    (arity_errors GoMap.entries [Value.BulkString (lit "h"), Value.BulkString (lit "f")]
      Store.init).2.2.1 (by decide),
    (arity_errors GoMap.entries [Value.BulkString (lit "h")] Store.init).2.2.2.1 (by decide),
    (arity_errors GoMap.entries [] Store.init).2.2.2.2.1 (by decide),
    (arity_errors GoMap.entries [] Store.init).2.2.2.2.2 (by decide)⟩

theorem lookupEntry_eq_none_iff {V : Type} (k : GoString) (es : List (GoString × V)) :
    lookupEntry k es = none ↔ k ∉ es.map Prod.fst := by
  induction es with
  | nil => simp [lookupEntry]
  | cons e es ih =>
    by_cases h : e.1 = k
    · simp [lookupEntry, h]
    · have h1 : ¬ k = e.1 := fun h2 => h h2.symm
      simp only [lookupEntry, if_neg h, ih, List.map_cons, List.mem_cons, not_or]
      tauto

theorem GoMap.get?_eq_none_iff {V : Type} (m : GoMap V) (k : GoString) :
    m.get? k = none ↔ k ∉ m.keys :=
  lookupEntry_eq_none_iff k m.entries

theorem GoMap.keys_delete {V : Type} (m : GoMap V) (k : GoString) :
    (m.delete k).keys = m.keys.filter (fun x => decide (x ≠ k)) := by
  simp only [GoMap.keys, GoMap.delete, List.filter_map]
  rfl

theorem filter_mem_cons_length (ks : List GoString) (a : GoString) (rest : List GoString)
    (hn : ks.Nodup) (ha : a ∈ ks) :
    (ks.filter (fun k => decide (k ∈ a :: rest))).length =
      ((ks.filter (fun k => decide (k ≠ a))).filter (fun k => decide (k ∈ rest))).length + 1 := by
  induction ks with
  | nil => simp at ha
  | cons x xs ih =>
    rw [List.nodup_cons] at hn
    by_cases hx : x = a
    · subst hx
      have h1 : xs.filter (fun k => decide (k ≠ x)) = xs := by
        rw [List.filter_eq_self]
        intro y hy
        have : y ≠ x := fun h => hn.1 (h ▸ hy)
        simpa using this
      have h2 : xs.filter (fun k => decide (k ∈ x :: rest)) = xs.filter (fun k => decide (k ∈ rest)) := by
        apply List.filter_congr
        intro y hy
        have : y ≠ x := fun h => hn.1 (h ▸ hy)
        simp [this]
      rw [List.filter_cons_of_pos (by simp), List.filter_cons_of_neg (by simp), h1, h2,
        List.length_cons]
    · have ha1 : a ∈ xs := by
        rcases List.mem_cons.1 ha with h | h
        · exact absurd h.symm hx
        · exact h
      have := ih hn.2 ha1
      by_cases hr : x ∈ rest
      · rw [List.filter_cons_of_pos (by simp [hr]), List.filter_cons_of_pos (by simp [hx]),
          List.filter_cons_of_pos (by simp [hr]), List.length_cons, List.length_cons, this]
      · rw [List.filter_cons_of_neg (by simp [hr, hx]), List.filter_cons_of_pos (by simp [hx]),
          List.filter_cons_of_neg (by simp [hr]), this]

theorem delLoop_spec {V : Type} (args : List Value) (m : GoMap V) (d : Int) :
    (delLoop args m d).1.entries =
        m.entries.filter (fun e => decide (e.1 ∉ args.map Value.bulk)) ∧
    (delLoop args m d).2 =
        d + ((m.keys.filter (fun k => decide (k ∈ args.map Value.bulk))).length : Int) := by
  induction args generalizing m d with
  | nil => simp [delLoop]
  | cons a rest ih =>
    cases hg : m.get? a.bulk with
    | none =>
      have hk : a.bulk ∉ m.keys := (GoMap.get?_eq_none_iff m a.bulk).1 hg
      rw [delLoop, hg]
      refine ⟨(ih m d).1.trans ?_, (ih m d).2.trans ?_⟩
      · apply List.filter_congr
        intro e he
        have : e.1 ≠ a.bulk := fun h => hk (h ▸ List.mem_map_of_mem Prod.fst he)
        simp [this]
      · congr 3
        apply List.filter_congr
        intro k hk1
        have : k ≠ a.bulk := fun h => hk (h ▸ hk1)
        simp [this]
    | some v =>
      have hk : a.bulk ∈ m.keys := by
        by_contra hc
        rw [(GoMap.get?_eq_none_iff m a.bulk).2 hc] at hg
        exact Option.noConfusion hg
      rw [delLoop, hg]
      refine ⟨(ih (m.delete a.bulk) (d + 1)).1.trans ?_, (ih (m.delete a.bulk) (d + 1)).2.trans ?_⟩
      · simp only [GoMap.delete, List.filter_filter]
        apply List.filter_congr
        intro e _
        simp [Bool.and_comm]
      · rw [GoMap.keys_delete, List.map_cons, filter_mem_cons_length m.keys a.bulk _ m.nodup hk]
        push_cast
        ring

theorem removedKeys_delLoop {V : Type} (args : List Value) (m : GoMap V) (d : Int) :
    removedKeys m (delLoop args m d).1 =
      m.keys.filter (fun k => decide (k ∈ args.map Value.bulk)) := by
  apply List.filter_congr
  intro k hk
  have h1 : ((delLoop args m d).1.get? k = none) ↔ k ∈ args.map Value.bulk := by
    rw [GoMap.get?_eq_none_iff, GoMap.keys, (delLoop_spec args m d).1]
    simp only [List.mem_map, List.mem_filter, decide_eq_true_eq, not_exists, not_and]
    constructor
    · intro h
      by_contra hc
      obtain ⟨e, he, hek⟩ := List.mem_map.1 hk
      exact h e ⟨he, by rw [hek]; simpa using hc⟩ hek
    · rintro ⟨a, ha, hak⟩ e ⟨_, he2⟩ hek
      exact he2 a ha (hak.trans hek.symm)
  by_cases hm : k ∈ args.map Value.bulk
  · rw [h1.2 hm]; simp [hm]
  · have : (delLoop args m d).1.get? k ≠ none := fun h => hm (h1.1 h)
    cases hg : (delLoop args m d).1.get? k with
    | none => exact absurd hg this
    | some _ => simp [hm]

/-! ## DEL -/

/-- C4, amended. `del` on a non-empty argument list replies the simple string
(not an integer value) whose text is the decimal count of the keys removed:
the keys that the string store held before and does not hold afterwards, plus
the keys that the hash store held before and does not hold afterwards. -/
theorem del_count (args : List Value) (st : Store) (h : args ≠ []) :
    (del args st).1 = Value.SimpleString (lit (Nat.repr
      ((removedKeys st.SETs (del args st).2.SETs).length +
        (removedKeys st.HSETs (del args st).2.HSETs).length))) := by
  have hl : ¬ args.length = 0 := fun h0 => h (List.length_eq_zero.1 h0)
  rw [← Itoa_eq_repr]
  simp only [del, if_neg hl, removedKeys_delLoop, (delLoop_spec args _ _).2]
  congr 2
  push_cast
  ring

/-- Witness of C4: after `SET a 1` and `HSET b f 1`, `DEL a b c` removes `a` from the
string store and `b` from the hash store and replies the simple string `2`. -/
theorem del_count_witness :
    [arg "a", arg "b", arg "c"] ≠ [] ∧
    (del [arg "a", arg "b", arg "c"] storeAB).1 = Value.SimpleString (lit (Nat.repr
      ((removedKeys storeAB.SETs (del [arg "a", arg "b", arg "c"] storeAB).2.SETs).length +
        (removedKeys storeAB.HSETs
          (del [arg "a", arg "b", arg "c"] storeAB).2.HSETs).length))) ∧
    removedKeys storeAB.SETs (del [arg "a", arg "b", arg "c"] storeAB).2.SETs = [lit "a"] ∧
    removedKeys storeAB.HSETs (del [arg "a", arg "b", arg "c"] storeAB).2.HSETs = [lit "b"] :=
  ⟨by simp, del_count [arg "a", arg "b", arg "c"] storeAB (by simp), by decide, by decide⟩

/-- Counterexample to C4 as stated: after `SET a 1` and `HSET b f 1`, the reply of
`DEL a b c` is the value `Value{typ: "string", str: "2"}`, sent as `+2\r\n`; it is not
the integer value 2. -/
theorem del_reply_not_integer :
    (del [arg "a", arg "b", arg "c"] storeAB).1 = Value.SimpleString (lit "2") ∧
    (del [arg "a", arg "b", arg "c"] storeAB).1 ≠ Value.Integer 2 ∧
    (del [arg "a", arg "b", arg "c"] storeAB).1.Marshal = lit "+2\r\n" :=
  ⟨rfl, fun h => absurd (congrArg Value.typ h) (by decide), rfl⟩

/-! ## HGETALL -/

theorem hgetallLoop_acc (es : List (GoString × GoString)) (acc : List Value) :
    hgetallLoop es acc = acc ++ hgetallLoop es [] := by
  induction es generalizing acc with
  | nil => simp [hgetallLoop]
  | cons e es ih =>
    rw [hgetallLoop, ih, hgetallLoop, ih (([] ++ _) ++ _)]
    simp

theorem hgetallLoop_cons (e : GoString × GoString) (es : List (GoString × GoString)) :
    hgetallLoop (e :: es) [] =
      Value.BulkString e.1 :: Value.BulkString e.2 :: hgetallLoop es [] := by
  rw [hgetallLoop, hgetallLoop_acc]
  simp

theorem hgetallLoop_length (es : List (GoString × GoString)) :
    (hgetallLoop es []).length = 2 * es.length := by
  induction es with
  | nil => simp [hgetallLoop]
  | cons e es ih => rw [hgetallLoop_cons]; simp [ih]; omega

theorem hgetallLoop_even (es : List (GoString × GoString)) (j : Nat) :
    (hgetallLoop es [])[2 * j]? = (es[j]?).map (fun e => Value.BulkString e.1) := by
  induction es generalizing j with
  | nil => simp [hgetallLoop]
  | cons e es ih =>
    rw [hgetallLoop_cons]
    cases j with
    | zero => simp
    | succ j =>
      have : 2 * (j + 1) = 2 * j + 1 + 1 := by omega
      rw [this, List.getElem?_cons_succ, List.getElem?_cons_succ, List.getElem?_cons_succ, ih]

theorem hgetallLoop_odd (es : List (GoString × GoString)) (j : Nat) :
    (hgetallLoop es [])[2 * j + 1]? = (es[j]?).map (fun e => Value.BulkString e.2) := by
  induction es generalizing j with
  | nil => simp [hgetallLoop]
  | cons e es ih =>
    rw [hgetallLoop_cons]
    cases j with
    | zero => simp
    | succ j =>
      have : 2 * (j + 1) + 1 = (2 * j + 1) + 1 + 1 := by omega
      rw [this, List.getElem?_cons_succ, List.getElem?_cons_succ, List.getElem?_cons_succ, ih]

theorem lookupEntry_eq_some_iff {V : Type} (k : GoString) (v : V) (es : List (GoString × V))
    (hn : (es.map Prod.fst).Nodup) : lookupEntry k es = some v ↔ (k, v) ∈ es := by
  induction es with
  | nil => simp [lookupEntry]
  | cons e es ih =>
    rw [List.map_cons, List.nodup_cons] at hn
    by_cases h : e.1 = k
    · rw [lookupEntry, if_pos h, List.mem_cons]
      constructor
      · intro hv
        left
        rw [← h, ← Option.some.inj hv]
      · rintro (heq | hmem)
        · rw [← heq]
        · exact absurd (h ▸ List.mem_map_of_mem Prod.fst hmem) hn.1
    · rw [lookupEntry, if_neg h, ih hn.2, List.mem_cons]
      constructor
      · exact Or.inr
      · rintro (heq | hmem)
        · exact absurd (by rw [← heq]) h
        · exact hmem

theorem Value.BulkString_inj {a b : GoString} (h : Value.BulkString a = Value.BulkString b) :
    a = b := by
  simp only [Value.BulkString, Value.mk.injEq] at h
  exact h.2.2.2.1

/-- C6, amended. For a hash that the hash store holds with `n` fields, `hgetall`
replies an array of exactly `2 * n` values, whatever order `range` visits the
fields in: for every `j < n` position `2 * j` holds the bulk string of a field
name and position `2 * j + 1` the bulk string of that field's value, and every
field of the hash stands at exactly one such pair of positions.  For an absent
hash the reply is the null value `Value{typ: "null"}`, which is sent as
`$-1\r\n`, the null bulk string (not a null array `*-1\r\n`). -/
theorem hgetall_pairs (range : RangeOrder) (hr : range.Valid) (st : Store) (h : Value) :
    (∀ m, st.HSETs.get? h.bulk = some m →
      ∃ items, (hgetall range [h] st).1 = Value.Array items ∧
        items.length = 2 * m.len ∧
        (∀ j, j < m.len → ∃ f v, items[2 * j]? = some (Value.BulkString f) ∧
          items[2 * j + 1]? = some (Value.BulkString v) ∧ m.get? f = some v) ∧
        (∀ f v, m.get? f = some v → ∃! j, j < m.len ∧
          items[2 * j]? = some (Value.BulkString f) ∧
          items[2 * j + 1]? = some (Value.BulkString v))) ∧
    (st.HSETs.get? h.bulk = none →
      (hgetall range [h] st).1 = Value.Null ∧
      (hgetall range [h] st).1.Marshal = lit "$-1\r\n") := by
  constructor
  · intro m hm
    have hp := hr m
    have hlen : (range m).length = m.len := hp.length_eq
    have hnd : ((range m).map Prod.fst).Nodup := (hp.map Prod.fst).nodup_iff.2 m.nodup
    refine ⟨hgetallLoop (range m) [], by simp only [hgetall, hm], ?_, ?_, ?_⟩
    · rw [hgetallLoop_length, hlen]
    · intro j hj
      have hj1 : j < (range m).length := hlen ▸ hj
      refine ⟨((range m)[j]).1, ((range m)[j]).2, ?_, ?_, ?_⟩
      · rw [hgetallLoop_even, List.getElem?_eq_getElem hj1]; rfl
      · rw [hgetallLoop_odd, List.getElem?_eq_getElem hj1]; rfl
      · exact (lookupEntry_eq_some_iff _ _ _ m.nodup).2 (hp.subset (List.getElem_mem hj1))
    · intro f v hfv
      have hmem : (f, v) ∈ range m :=
        hp.symm.subset ((lookupEntry_eq_some_iff _ _ _ m.nodup).1 hfv)
      obtain ⟨j, hj⟩ := List.mem_iff_getElem?.1 hmem
      have hj1 : j < (range m).length := (List.getElem?_eq_some.1 hj).1
      refine ⟨j, ⟨hlen ▸ hj1, ?_, ?_⟩, ?_⟩
      · rw [hgetallLoop_even, hj]; rfl
      · rw [hgetallLoop_odd, hj]; rfl
      · rintro i ⟨hi, hi0, _⟩
        have hi1 : i < (range m).length := hlen ▸ hi
        rw [hgetallLoop_even, List.getElem?_eq_getElem hi1, Option.map_some', Option.some_inj]
          at hi0
        have hfi : ((range m)[i]).1 = f := Value.BulkString_inj hi0
        apply List.getElem?_inj (by simpa using hi1) hnd
        rw [List.getElem?_map, List.getElem?_map, hj, List.getElem?_eq_getElem hi1]
        simp [hfi]
  · intro hn
    constructor
    · simp only [hgetall, hn]
    · simp only [hgetall, hn]
      rfl

theorem RangeOrder.valid_entries : RangeOrder.Valid GoMap.entries := fun _ => List.Perm.refl _

/-- Witness of C6: after `HSET h f v` on the start-up store, with `range` visiting the
entries as stored, `HGETALL h` replies the array of `f` and `v`; `HGETALL` of a hash
never set replies the null value. -/
theorem hgetall_pairs_witness :
    RangeOrder.Valid GoMap.entries ∧
    (hgetall GoMap.entries [arg "h"] (hset [arg "h", arg "f", arg "v"] Store.init).2).1
      = Value.Array [arg "f", arg "v"] ∧
    (∃ items,
      (hgetall GoMap.entries [arg "h"] (hset [arg "h", arg "f", arg "v"] Store.init).2).1
        = Value.Array items ∧ items.length = 2 * 1) ∧
    (hgetall GoMap.entries [arg "nohash"] Store.init).1 = Value.Null :=
  ⟨RangeOrder.valid_entries, rfl,
    (((hgetall_pairs GoMap.entries RangeOrder.valid_entries
        (hset [arg "h", arg "f", arg "v"] Store.init).2 (arg "h")).1
        ((GoMap.empty : GoMap GoString).set (lit "f") (lit "v")) rfl).imp
      (fun _ hi => ⟨hi.1, hi.2.1⟩)),
    ((hgetall_pairs GoMap.entries RangeOrder.valid_entries Store.init (arg "nohash")).2 rfl).1⟩

/-- Counterexample to C6 as stated: on the start-up store `HGETALL h` replies
`Value{typ: "null"}`, whose encoding is the null bulk string `$-1\r\n`; it is not an
array value and its encoding is not the null array `*-1\r\n`. -/
theorem hgetall_absent_not_null_array :
    (hgetall GoMap.entries [arg "h"] Store.init).1 = Value.Null ∧
    (hgetall GoMap.entries [arg "h"] Store.init).1.typ ≠ "array" ∧
    (hgetall GoMap.entries [arg "h"] Store.init).1.Marshal = lit "$-1\r\n" ∧
    (hgetall GoMap.entries [arg "h"] Store.init).1.Marshal ≠ lit "*-1\r\n" :=
  ⟨rfl, by decide, rfl, by decide⟩

/-! ## Lemmas on `strconv` -/

theorem toNat_digit (d : Nat) (hd : d < 10) : (UInt8.ofNat (48 + d)).toNat = 48 + d := by
  show (48 + d) % 256 = 48 + d
  omega

theorem natDigits_acc (fuel n : Nat) (acc : GoString) :
    natDigits fuel n acc = natDigits fuel n [] ++ acc := by
  induction fuel generalizing n acc with
  | zero => simp [natDigits]
  | succ fuel ih =>
    simp only [natDigits]
    split
    · simp
    · rw [ih, ih (n / 10) [_]]
      simp

theorem natDigits_succ (fuel n : Nat) :
    natDigits (fuel + 1) n [] =
      (if n / 10 = 0 then [] else natDigits fuel (n / 10) []) ++ [UInt8.ofNat (48 + n % 10)] := by
  simp only [natDigits]
  split
  · simp
  · rw [natDigits_acc]

theorem natDigits_isDigit (fuel n : Nat) :
    ∀ c ∈ natDigits fuel n [], 48 ≤ c.toNat ∧ c.toNat ≤ 57 := by
  induction fuel generalizing n with
  | zero => simp [natDigits]
  | succ fuel ih =>
    intro c hc
    rw [natDigits_succ, List.mem_append, List.mem_singleton] at hc
    rcases hc with hc | hc
    · split at hc
      · simp at hc
      · exact ih _ c hc
    · rw [hc, toNat_digit _ (Nat.mod_lt _ (by decide))]
      have := Nat.mod_lt n (show 0 < 10 by decide)
      omega

theorem digitsValue_ge (ds : GoString) (a : Nat) : a ≤ digitsValue ds a := by
  induction ds generalizing a with
  | nil => simp [digitsValue]
  | cons c cs ih =>
    have := ih (a * 10 + (c.toNat - 48))
    simp only [digitsValue, List.foldl_cons] at this ⊢
    omega

theorem parseUintLoop_digits (ds : GoString) (a : Nat)
    (hd : ∀ c ∈ ds, 48 ≤ c.toNat ∧ c.toNat ≤ 57) (hv : digitsValue ds a < 2 ^ 64) :
    parseUintLoop ds a = .ok (digitsValue ds a) := by
  induction ds generalizing a with
  | nil => rfl
  | cons c cs ih =>
    have hc := hd c (List.mem_cons_self c cs)
    have hv1 : digitsValue cs (a * 10 + (c.toNat - 48)) < 2 ^ 64 := hv
    have hlt : ¬ 2 ^ 64 ≤ a * 10 + (c.toNat - 48) :=
      Nat.not_le.2 (Nat.lt_of_le_of_lt (digitsValue_ge cs _) hv1)
    rw [parseUintLoop, if_pos hc, if_neg hlt,
      ih _ (fun x hx => hd x (List.mem_cons_of_mem c hx)) hv1]
    rfl

theorem digitsValue_natDigits (fuel n : Nat) (h : n < fuel) :
    digitsValue (natDigits fuel n []) 0 = n := by
  induction fuel generalizing n with
  | zero => omega
  | succ fuel ih =>
    rw [natDigits_succ, digitsValue, List.foldl_append]
    simp only [List.foldl_cons, List.foldl_nil]
    rw [toNat_digit _ (Nat.mod_lt _ (by decide))]
    split
    · next h0 =>
      simp only [List.foldl_nil]
      omega
    · next h0 =>
      have := ih (n / 10) (by omega)
      rw [digitsValue] at this
      rw [this]
      omega

theorem natDigits_ne_nil (fuel n : Nat) : natDigits (fuel + 1) n [] ≠ [] := by
  rw [natDigits_succ]
  simp

theorem ParseInt_Itoa (n : Nat) (hn : n < 2 ^ 63) : ParseInt (Itoa (n : Int)) = .ok (n : Int) := by
  have hI : Itoa (n : Int) = natDigits (n + 1) n [] := rfl
  rw [hI]
  have hd := natDigits_isDigit (n + 1) n
  have hval := digitsValue_natDigits (n + 1) n (Nat.lt_succ_self n)
  cases hds : natDigits (n + 1) n [] with
  | nil => exact absurd hds (natDigits_ne_nil n n)
  | cons c cs =>
    rw [hds] at hd hval
    have hc := hd c (List.mem_cons_self c cs)
    have h43 : c ≠ 43 := fun h => by rw [h] at hc; exact absurd hc (by decide)
    have h45 : c ≠ 45 := fun h => by rw [h] at hc; exact absurd hc (by decide)
    have hp : ParseUint (c :: cs) = .ok n := by
      rw [ParseUint, if_neg (List.cons_ne_nil c cs),
        parseUintLoop_digits _ _ hd (by rw [hval]; omega), hval]
    simp only [ParseInt, h43, h45, or_self, if_false, hp, decide_False]
    simp
    simpa using hn

theorem Itoa_no_lf (n : Nat) : (10 : UInt8) ∉ Itoa (n : Int) := by
  intro h
  have := natDigits_isDigit (n + 1) n 10 h
  exact absurd this (by decide)

/-! ## Lemmas on the reader -/

theorem endsWithCRLF_append_ne (xs : GoString) (c : UInt8) (hc : c ≠ 10) :
    endsWithCRLF (xs ++ [c]) = false := by
  simp [endsWithCRLF, hc]

theorem endsWithCRLF_append_crlf (xs : GoString) : endsWithCRLF (xs ++ [13] ++ [10]) = true := by
  simp [endsWithCRLF, List.getElem_append_right]

theorem readLineLoop_line (l : GoString) (hl : (10 : UInt8) ∉ l) (acc : GoString) (n : Int)
    (rest : Stream) :
    readLineLoop (l ++ 13 :: 10 :: rest) acc n = ⟨acc ++ l, n + l.length + 2, none, rest⟩ := by
  induction l generalizing acc n with
  | nil =>
    rw [List.nil_append, readLineLoop, if_neg (by rw [endsWithCRLF_append_ne _ _ (by decide)]; simp),
      readLineLoop, if_pos (endsWithCRLF_append_crlf acc)]
    simp
    omega
  | cons c cs ih =>
    have hc : c ≠ 10 := fun h => hl (h ▸ List.mem_cons_self c cs)
    rw [List.cons_append, readLineLoop,
      if_neg (by rw [endsWithCRLF_append_ne _ _ hc]; simp),
      ih (fun h => hl (List.mem_cons_of_mem c h))]
    simp
    omega

theorem readLine_line (l : GoString) (hl : (10 : UInt8) ∉ l) (rest : Stream) :
    readLine (l ++ 13 :: 10 :: rest) = ⟨l, l.length + 2, none, rest⟩ := by
  rw [readLine, readLineLoop_line l hl]
  simp

theorem readInteger_Itoa (n : Nat) (hn : n < 2 ^ 63) (rest : Stream) :
    readInteger (Itoa (n : Int) ++ 13 :: 10 :: rest) =
      ⟨(n : Int), (Itoa (n : Int)).length + 2, none, rest⟩ := by
  simp only [readInteger, readLine_line _ (Itoa_no_lf n), ParseInt_Itoa n hn]

theorem ReadFull_append (b : GoString) (s : Stream) : ReadFull (b ++ s) b.length = (b, none, s) := by
  unfold ReadFull
  by_cases h : b.length = 0
  · rw [if_pos h]
    rw [List.length_eq_zero] at h
    simp [h]
  · rw [if_neg h, if_pos (by simp)]
    simp

theorem makeslice_lt (memory elemSize n : Nat) (he : 1 ≤ elemSize)
    (h : makeslice memory elemSize (n : Int) = true) : n < 2 ^ 63 := by
  simp only [makeslice, Bool.and_eq_true, decide_eq_true_eq, Int.toNat_ofNat, maxAlloc] at h
  have h1 : n * 1 ≤ n * elemSize := Nat.mul_le_mul_left n he
  have h2 : (2 : Nat) ^ 48 < 2 ^ 63 := by decide
  omega

theorem makeslice_ne_false (memory elemSize : Nat) (x : Int)
    (h : makeslice memory elemSize x = true) : ¬ makeslice memory elemSize x = false := by
  rw [h]
  decide

theorem readBulk_Marshal (memory : Nat) (b : GoString)
    (hb : makeslice memory 1 (b.length : Int) = true) (rest : Stream) :
    readBulk memory (Itoa (b.length : Int) ++ [13, 10] ++ b ++ [13, 10] ++ rest) =
      .ret (Value.BulkString b) none rest := by
  have h1 : Itoa (b.length : Int) ++ [13, 10] ++ b ++ [13, 10] ++ rest =
      Itoa (b.length : Int) ++ 13 :: 10 :: (b ++ ([] ++ 13 :: 10 :: rest)) := by simp
  simp only [readBulk, h1, readInteger_Itoa _ (makeslice_lt memory 1 _ (Nat.le_refl 1) hb),
    if_neg (makeslice_ne_false _ _ _ hb), Int.toNat_ofNat, ReadFull_append,
    readLine_line [] (List.not_mem_nil _)]
  rfl

theorem Marshal_length_le_marshalItems (items : List Value) (v : Value) (hv : v ∈ items) :
    v.Marshal.length ≤ (marshalItems items).length := by
  induction items with
  | nil => simp at hv
  | cons x xs ih =>
    rw [marshalItems, List.length_append]
    rcases List.mem_cons.1 hv with h | h
    · rw [h]; omega
    · have := ih h; omega

theorem readArrayLoop_items (read : Stream → Outcome) (items : List Value)
    (hread : ∀ v ∈ items, ∀ rest, read (v.Marshal ++ rest) = .ret v none rest)
    (acc : List Value) (rest : Stream) :
    readArrayLoop read items.length acc (marshalItems items ++ rest) =
      .ret (Value.mk "array" [] 0 [] (acc ++ items)) none rest := by
  induction items generalizing acc with
  | nil => simp [readArrayLoop, marshalItems]
  | cons x xs ih =>
    rw [List.length_cons, marshalItems, List.append_assoc, readArrayLoop,
      hread x (List.mem_cons_self x xs)]
    simp only
    rw [ih (fun v hv => hread v (List.mem_cons_of_mem x hv))]
    simp

theorem Marshal_BulkString (b : GoString) :
    (Value.BulkString b).Marshal = [BULK] ++ Itoa (b.length : Int) ++ [13, 10] ++ b ++ [13, 10] := by
  simp [Value.BulkString, Value.Marshal]

theorem Marshal_Array (items : List Value) :
    (Value.Array items).Marshal =
      [ARRAY] ++ Itoa (items.length : Int) ++ [13, 10] ++ marshalItems items := by
  simp [Value.Array, Value.Marshal]

theorem ReadN_Marshal (memory : Nat) (v : Value) (hv : v.BulkTree memory) :
    ∀ (fuel : Nat) (rest : Stream), v.Marshal.length ≤ fuel →
      Resp.ReadN memory fuel (v.Marshal ++ rest) = .ret v none rest := by
  induction hv with
  | bulk b hb =>
    intro fuel rest hf
    rw [Marshal_BulkString] at hf ⊢
    cases fuel with
    | zero => simp at hf
    | succ fuel =>
      have := readBulk_Marshal memory b hb rest
      simp only [List.append_assoc, List.singleton_append, List.cons_append, List.nil_append]
        at this ⊢
      rw [Resp.ReadN, if_neg (by decide), if_pos rfl, this]
  | array items hl hi ih =>
    intro fuel rest hf
    rw [Marshal_Array] at hf ⊢
    cases fuel with
    | zero => simp at hf
    | succ fuel =>
      have hfuel : (marshalItems items).length ≤ fuel := by
        simp only [List.length_append, List.length_cons, List.length_nil] at hf
        omega
      have hread : ∀ v ∈ items, ∀ rest,
          Resp.ReadN memory fuel (v.Marshal ++ rest) = .ret v none rest :=
        fun v hv rest1 =>
          ih v hv fuel rest1 (Nat.le_trans (Marshal_length_le_marshalItems items v hv) hfuel)
      have h1 : [ARRAY] ++ Itoa (items.length : Int) ++ [13, 10] ++ marshalItems items ++ rest =
          ARRAY :: (Itoa (items.length : Int) ++ 13 :: 10 :: (marshalItems items ++ rest)) := by
        simp
      rw [h1, Resp.ReadN, if_pos rfl]
      simp only [readArray,
        readInteger_Itoa _ (makeslice_lt memory sizeofValue _ (by decide) hl),
        if_neg (makeslice_ne_false _ _ _ hl), Int.toNat_ofNat]
      rw [readArrayLoop_items _ items hread]
      rfl

/-! ## The recursion bound of `Resp.Read` is never reached -/

theorem readLineLoop_rest_length (s : Stream) (acc : GoString) (n : Int) :
    (readLineLoop s acc n).rest.length ≤ s.length := by
  induction s generalizing acc n with
  | nil => simp [readLineLoop]
  | cons b rest ih =>
    rw [readLineLoop]
    split
    · simp
    · exact Nat.le_succ_of_le (ih _ _)

theorem readInteger_rest_length (s : Stream) : (readInteger s).rest.length ≤ s.length := by
  have h : (readLine s).rest.length ≤ s.length := readLineLoop_rest_length s [] 0
  simp only [readInteger]
  split
  · exact h
  · split <;> exact h

theorem ReadFull_rest_length (s : Stream) (len : Nat) : (ReadFull s len).2.2.length ≤ s.length := by
  unfold ReadFull
  split
  · exact Nat.le_refl _
  · split
    · simp
    · split <;> simp

theorem readBulk_rest_length (memory : Nat) (s : Stream) :
    readBulk memory s ≠ .outOfFuel ∧
      ∀ v e r, readBulk memory s = .ret v e r → r.length ≤ s.length := by
  have h1 := readInteger_rest_length s
  simp only [readBulk]
  split
  · refine ⟨by simp, fun v e r h => ?_⟩
    simp only [Outcome.ret.injEq] at h
    rw [← h.2.2]; exact h1
  · split
    · exact ⟨by simp, fun v e r h => by simp at h⟩
    · have h2 := ReadFull_rest_length (readInteger s).rest (readInteger s).x.toNat
      split
      · next heq =>
        rw [heq] at h2
        refine ⟨by simp, fun v e r h => ?_⟩
        simp only [Outcome.ret.injEq] at h
        rw [← h.2.2]; exact Nat.le_trans h2 h1
      · next bulk s2 heq =>
        rw [heq] at h2
        have h3 : (readLine s2).rest.length ≤ s2.length := readLineLoop_rest_length s2 [] 0
        have h4 : (readLine s2).rest.length ≤ s.length :=
          Nat.le_trans h3 (Nat.le_trans h2 h1)
        split
        · refine ⟨by simp, fun v e r h => ?_⟩
          simp only [Outcome.ret.injEq] at h
          rw [← h.2.2]; exact h4
        · refine ⟨by simp, fun v e r h => ?_⟩
          simp only [Outcome.ret.injEq] at h
          rw [← h.2.2]; exact h4

theorem readArrayLoop_rest_length (read : Stream → Outcome) (bound : Nat)
    (hread : ∀ s, s.length ≤ bound →
      read s ≠ .outOfFuel ∧ ∀ v e r, read s = .ret v e r → r.length ≤ s.length)
    (k : Nat) (acc : List Value) (s : Stream) (hs : s.length ≤ bound) :
    readArrayLoop read k acc s ≠ .outOfFuel ∧
      ∀ v e r, readArrayLoop read k acc s = .ret v e r → r.length ≤ s.length := by
  induction k generalizing acc s with
  | zero =>
    refine ⟨by simp [readArrayLoop], fun v e r h => ?_⟩
    simp only [readArrayLoop, Outcome.ret.injEq] at h
    rw [← h.2.2]
  | succ k ih =>
    have hr := hread s hs
    rw [readArrayLoop]
    cases hrd : read s with
    | ret val err s1 =>
      have hs1 : s1.length ≤ s.length := hr.2 val err s1 hrd
      cases err with
      | none =>
        have := ih (acc ++ [val]) s1 (Nat.le_trans hs1 hs)
        exact ⟨this.1, fun v e r h => Nat.le_trans (this.2 v e r h) hs1⟩
      | some e1 =>
        refine ⟨by simp, fun v e r h => ?_⟩
        simp only [Outcome.ret.injEq] at h
        rw [← h.2.2]; exact hs1
    | runtimePanic => exact ⟨by simp, fun v e r h => by simp at h⟩
    | outOfFuel => exact absurd hrd hr.1

theorem ReadN_fuel (memory fuel : Nat) (s : Stream) (hf : s.length < fuel) :
    Resp.ReadN memory fuel s ≠ .outOfFuel ∧
      ∀ v e r, Resp.ReadN memory fuel s = .ret v e r → r.length ≤ s.length := by
  induction fuel generalizing s with
  | zero => omega
  | succ fuel ih =>
    cases s with
    | nil =>
      refine ⟨by simp [Resp.ReadN], fun v e r h => ?_⟩
      simp only [Resp.ReadN, Outcome.ret.injEq] at h
      rw [← h.2.2]
    | cons t rest =>
      rw [Resp.ReadN]
      have hrest : rest.length < fuel := by simpa using hf
      split
      · have h1 := readInteger_rest_length rest
        simp only [readArray]
        split
        · refine ⟨by simp, fun v e r h => ?_⟩
          simp only [Outcome.ret.injEq] at h
          rw [← h.2.2]; exact Nat.le_succ_of_le h1
        · split
          · exact ⟨by simp, fun v e r h => by simp at h⟩
          · have := readArrayLoop_rest_length (Resp.ReadN memory fuel) (fuel - 1)
              (fun s1 hs1 => ih s1 (by omega)) (readInteger rest).x.toNat []
              (readInteger rest).rest (by omega)
            exact ⟨this.1, fun v e r h =>
              Nat.le_succ_of_le (Nat.le_trans (this.2 v e r h) h1)⟩
      · split
        · have := readBulk_rest_length memory rest
          exact ⟨this.1, fun v e r h => Nat.le_succ_of_le (this.2 v e r h)⟩
        · refine ⟨by simp, fun v e r h => ?_⟩
          simp only [Outcome.ret.injEq] at h
          rw [← h.2.2]; exact Nat.le_succ _

theorem Read_ne_outOfFuel (memory : Nat) (s : Stream) : Resp.Read memory s ≠ .outOfFuel :=
  (ReadN_fuel memory (s.length + 1) s (Nat.lt_succ_self _)).1

/-! ## Round trip -/

/-- C1, amended. For every value built from bulk strings and arrays of such
values, nested arbitrarily, `Resp.Read` on the bytes of `Value.Marshal` returns
that value, with no error and all bytes consumed.  (Simple strings, errors and
integers are not among the values the reader decodes.  The lengths in the
value are lengths that `make` can allocate in the reading process, as those
of a value held in memory are.) -/
theorem Read_Marshal (memory : Nat) (v : Value) (hv : v.BulkTree memory) :
    Resp.Read memory v.Marshal = .ret v none [] := by
  have := ReadN_Marshal memory v hv (v.Marshal.length + 1) [] (Nat.le_succ _)
  rw [List.append_nil] at this
  exact this

/-- Witness of C1: the request `SET k v`, followed inside the array by a nested array and
an empty bulk string, comes back from its encoding. -/
theorem Read_Marshal_witness :
    (Value.Array [arg "SET", arg "k", arg "v", Value.Array [arg "x"], arg ""]).BulkTree oneGiB ∧
    Resp.Read oneGiB
        (Value.Array [arg "SET", arg "k", arg "v", Value.Array [arg "x"], arg ""]).Marshal
      = .ret (Value.Array [arg "SET", arg "k", arg "v", Value.Array [arg "x"], arg ""]) none [] :=
  have hb : ∀ s : String, makeslice oneGiB 1 ((lit s).length : Int) = true →
      (arg s).BulkTree oneGiB :=
    fun s hs => Value.BulkTree.bulk (lit s) hs
  have hx : (Value.Array [arg "x"]).BulkTree oneGiB :=
    Value.BulkTree.array _ (by decide) (by
      intro v hv
      rw [List.mem_singleton] at hv
      rw [hv]
      exact hb "x" (by decide))
  have ht : (Value.Array
      [arg "SET", arg "k", arg "v", Value.Array [arg "x"], arg ""]).BulkTree oneGiB :=
    Value.BulkTree.array _ (by decide) (by
      intro v hv
      simp only [List.mem_cons, List.mem_singleton, List.not_mem_nil, or_false] at hv
      rcases hv with h | h | h | h | h <;> rw [h]
      · exact hb "SET" (by decide)
      · exact hb "k" (by decide)
      · exact hb "v" (by decide)
      · exact hx
      · exact hb "" (by decide))
  ⟨ht, Read_Marshal oneGiB _ ht⟩

/-- Counterexample to C1 as stated: the encoding `+OK\r\n` of the simple string `OK` is
read as the zero value `Value{}` with no error and `OK\r\n` left unread, and so is the
encoding of an error value; an integer value is encoded as no bytes at all, on which
the reader reports `io.EOF`. -/
theorem Read_Marshal_SimpleString :
    Resp.Read oneGiB (Value.SimpleString (lit "OK")).Marshal
      = .ret Value.zero none (lit "OK\r\n") ∧
    Value.zero ≠ Value.SimpleString (lit "OK") ∧
    Resp.Read oneGiB (Value.Error (lit "ERR x")).Marshal
      = .ret Value.zero none (lit "ERR x\r\n") ∧
    (Value.Integer 5).Marshal = [] ∧
    Resp.Read oneGiB (Value.Integer 5).Marshal = .ret Value.zero (some .EOF) [] :=
  ⟨rfl, fun h => absurd (congrArg Value.typ h) (by decide), rfl, rfl, rfl⟩

/-! ## Replay of the append-only file -/

theorem Aof_Read_first_only {σ : Type} (memory : Nat) (r : Value) (hr : r.BulkTree memory)
    (rest : Stream) (callback : Value → σ → σ) (st : σ) :
    Aof.Read memory (r.Marshal ++ rest) callback st = .ret none (callback r st) := by
  have h : Resp.Read memory (r.Marshal ++ rest) = .ret r none rest :=
    ReadN_Marshal memory r hr _ rest (by simp; omega)
  simp [Aof.Read, h]

/-- C2, the code at the failing input: on a file that holds the two requests
`SET a 1` and `SET b 2` back to back, `Aof.Read` calls the callback on the
first request only and returns `nil`. -/
theorem Aof_Read_two_requests :
    Aof.Read oneGiB
        ((Value.Array [arg "SET", arg "a", arg "1"]).Marshal ++
          (Value.Array [arg "SET", arg "b", arg "2"]).Marshal) record []
      = .ret none [Value.Array [arg "SET", arg "a", arg "1"]] := rfl

/-! ## The encoding -/

theorem marshalItems_eq_flatten (items : List Value) :
    marshalItems items = (items.map Value.Marshal).flatten := by
  induction items with
  | nil => rfl
  | cons v vs ih => rw [marshalItems, ih]; rfl

/-- C8. `Value.Marshal` writes a simple string as `+`, the text, CRLF; an error
as `-`, the text, CRLF; the null value as `$-1\r\n`; a bulk string as `$`, the
decimal length, CRLF, the bytes, CRLF; an array as `*`, the decimal number of
items, CRLF, and then the encodings of the items in order.  The decimal
representation is that of `Nat.repr`. -/
theorem Marshal_format :
    (∀ t, (Value.SimpleString t).Marshal = lit "+" ++ t ++ lit "\r\n") ∧
    (∀ t, (Value.Error t).Marshal = lit "-" ++ t ++ lit "\r\n") ∧
    Value.Null.Marshal = lit "$-1\r\n" ∧
    (∀ b, (Value.BulkString b).Marshal =
      lit "$" ++ lit (Nat.repr b.length) ++ lit "\r\n" ++ b ++ lit "\r\n") ∧
    (∀ items, (Value.Array items).Marshal =
      lit "*" ++ lit (Nat.repr items.length) ++ lit "\r\n" ++
        (items.map Value.Marshal).flatten) :=
  ⟨fun _ => rfl, fun _ => rfl, rfl,
    fun b => by rw [Marshal_BulkString, Itoa_eq_repr]; rfl,
    fun items => by rw [Marshal_Array, marshalItems_eq_flatten, Itoa_eq_repr]; rfl⟩

/-! ## Negative lengths and unknown tags -/

/-- C9, the code at the failing inputs: on `$-1\r\n` and on `*-1\r\n` the reader
parses the length -1 and then asks `make` for a slice of that length, which
panics, whatever memory the process has; no null value is returned. -/
theorem Read_negative_length :
    (∀ memory, Resp.Read memory (lit "$-1\r\n") = .runtimePanic) ∧
    (∀ memory, Resp.Read memory (lit "*-1\r\n") = .runtimePanic) ∧
    (∀ memory, Resp.Read memory Value.Null.Marshal = .runtimePanic) :=
  ⟨fun _ => rfl, fun _ => rfl, fun _ => rfl⟩

/-- C10, amended. On an input whose first byte is neither `*` nor `$`,
`Resp.Read` consumes that byte and returns the zero value `Value{}` with a nil
error. -/
theorem Read_unknown_tag (memory : Nat) (t : UInt8) (rest : Stream) (ha : t ≠ ARRAY)
    (hb : t ≠ BULK) : Resp.Read memory (t :: rest) = .ret Value.zero none rest := by
  rw [Resp.Read, List.length_cons, Resp.ReadN, if_neg ha, if_neg hb]

/-- Witness of C10: the input `GET k\r\n`, whose first byte `G` (71) is no type tag. -/
theorem Read_unknown_tag_witness :
    (71 : UInt8) ≠ ARRAY ∧ (71 : UInt8) ≠ BULK ∧
    Resp.Read oneGiB (71 :: lit "ET k\r\n") = .ret Value.zero none (lit "ET k\r\n") :=
  ⟨by decide, by decide, Read_unknown_tag oneGiB 71 (lit "ET k\r\n") (by decide) (by decide)⟩

/-- Counterexample to C10 as stated: on the inline command `PING\r\n`, whose first byte
is no type tag, `Resp.Read` returns a value and the nil error. -/
theorem Read_unknown_tag_no_error :
    Resp.Read oneGiB (lit "PING\r\n") = .ret Value.zero none (lit "ING\r\n") := rfl

/-! ## Short reads and the terminator of a bulk string -/

theorem parseUintLoop_digits_range (ds : GoString) (a : Nat) (ha : a < 2 ^ 64)
    (hd : ∀ c ∈ ds, 48 ≤ c.toNat ∧ c.toNat ≤ 57) (hv : 2 ^ 64 ≤ digitsValue ds a) :
    parseUintLoop ds a = .error .ErrRange := by
  induction ds generalizing a with
  | nil => exact absurd hv (Nat.not_le.2 ha)
  | cons c cs ih =>
    have hc := hd c (List.mem_cons_self c cs)
    have hv1 : 2 ^ 64 ≤ digitsValue cs (a * 10 + (c.toNat - 48)) := hv
    rw [parseUintLoop, if_pos hc]
    split
    · rfl
    · next hlt =>
      exact ih _ (Nat.not_le.1 hlt) (fun x hx => hd x (List.mem_cons_of_mem c hx)) hv1

theorem ParseInt_Itoa_range (n : Nat) (hn : 2 ^ 63 ≤ n) :
    ParseInt (Itoa (n : Int)) = .error .ErrRange := by
  have hI : Itoa (n : Int) = natDigits (n + 1) n [] := rfl
  rw [hI]
  have hd := natDigits_isDigit (n + 1) n
  have hval := digitsValue_natDigits (n + 1) n (Nat.lt_succ_self n)
  cases hds : natDigits (n + 1) n [] with
  | nil => exact absurd hds (natDigits_ne_nil n n)
  | cons c cs =>
    rw [hds] at hd hval
    have hc := hd c (List.mem_cons_self c cs)
    have h43 : c ≠ 43 := fun h => by rw [h] at hc; exact absurd hc (by decide)
    have h45 : c ≠ 45 := fun h => by rw [h] at hc; exact absurd hc (by decide)
    by_cases hbig : 2 ^ 64 ≤ n
    · have hp : ParseUint (c :: cs) = .error .ErrRange := by
        rw [ParseUint, if_neg (List.cons_ne_nil c cs),
          parseUintLoop_digits_range _ _ (by decide) hd (by rw [hval]; exact hbig)]
      simp only [ParseInt, h43, h45, or_self, if_false, hp]
    · have hp : ParseUint (c :: cs) = .ok n := by
        rw [ParseUint, if_neg (List.cons_ne_nil c cs),
          parseUintLoop_digits _ _ hd (by rw [hval]; omega), hval]
      simp only [ParseInt, h43, h45, or_self, if_false, hp, decide_False]
      rw [if_pos ⟨trivial, hn⟩]

theorem endsWithCRLF_concat (acc : GoString) (c : UInt8) :
    endsWithCRLF (acc ++ [c]) = (decide (acc.getLast? = some 13) && decide (c = 10)) := by
  rcases List.eq_nil_or_concat acc with h | ⟨init, x, h⟩
  · subst h
    simp [endsWithCRLF]
  · subst h
    by_cases hx : x = 13 <;> by_cases hc : c = 10 <;>
      simp [endsWithCRLF, List.getElem_append_right, hx, hc]

theorem hasCRLF_getLast_cons (acc : GoString) (c : UInt8) (cs : GoString)
    (h : hasCRLF (acc.getLast?.toList ++ c :: cs) = false) :
    endsWithCRLF (acc ++ [c]) = false ∧ hasCRLF ((acc ++ [c]).getLast?.toList ++ cs) = false := by
  rw [endsWithCRLF_concat]
  have hl : (acc ++ [c]).getLast? = some c := by simp
  rw [hl]
  cases hg : acc.getLast? with
  | none =>
    rw [hg] at h
    exact ⟨by simp, h⟩
  | some x =>
    rw [hg] at h
    simp only [Option.toList, List.singleton_append, hasCRLF, Bool.or_eq_false_iff] at h
    refine ⟨?_, h.2⟩
    have h1 := h.1
    by_cases hx : x = 13
    · subst hx
      simp at h1
      simp [h1]
    · simp [hx]

theorem readLineLoop_noCRLF (l : GoString) (acc : GoString) (n : Int) (rest : Stream)
    (h : hasCRLF (acc.getLast?.toList ++ l) = false) :
    readLineLoop (l ++ 13 :: 10 :: rest) acc n = ⟨acc ++ l, n + l.length + 2, none, rest⟩ := by
  induction l generalizing acc n with
  | nil =>
    rw [List.nil_append, readLineLoop, if_neg (by rw [endsWithCRLF_append_ne _ _ (by decide)]; simp),
      readLineLoop, if_pos (endsWithCRLF_append_crlf acc)]
    simp
    omega
  | cons c cs ih =>
    have hc := hasCRLF_getLast_cons acc c cs h
    rw [List.cons_append, readLineLoop, if_neg (by rw [hc.1]; simp), ih _ _ hc.2]
    simp
    omega

theorem readLineLoop_noCRLF_eof (s : Stream) (acc : GoString) (n : Int)
    (h : hasCRLF (acc.getLast?.toList ++ s) = false) :
    readLineLoop s acc n = ⟨[], 0, some .EOF, []⟩ := by
  induction s generalizing acc n with
  | nil => rfl
  | cons c cs ih =>
    have hc := hasCRLF_getLast_cons acc c cs h
    rw [readLineLoop, if_neg (by rw [hc.1]; simp), ih _ _ hc.2]

theorem readLine_noCRLF (l : GoString) (rest : Stream) (h : hasCRLF l = false) :
    readLine (l ++ 13 :: 10 :: rest) = ⟨l, l.length + 2, none, rest⟩ := by
  rw [readLine, readLineLoop_noCRLF l [] 0 rest h]
  simp

theorem readLine_noCRLF_eof (s : Stream) (h : hasCRLF s = false) :
    readLine s = ⟨[], 0, some .EOF, []⟩ :=
  readLineLoop_noCRLF_eof s [] 0 h

theorem ReadFull_short (s : Stream) (len : Nat) (h : s.length < len) :
    ReadFull s len = ([], some .EOF, []) ∨ ReadFull s len = (s, some .ErrUnexpectedEOF, []) := by
  have h0 : ¬ len = 0 := by omega
  have h1 : ¬ len ≤ s.length := by omega
  rw [ReadFull, if_neg h0, if_neg h1]
  by_cases hs : s = []
  · left; rw [if_pos hs]
  · right; rw [if_neg hs]

theorem bulk_header (L : Nat) (tail : Stream) :
    lit "$" ++ lit (Nat.repr L) ++ lit "\r\n" ++ tail =
      BULK :: (Itoa (L : Int) ++ 13 :: 10 :: tail) := by
  rw [← Itoa_eq_repr]
  simp [lit, BULK]

theorem Read_short_bulk (memory L : Nat) (data : Stream) (hd : data.length < L)
    (hm : makeslice memory 1 (L : Int) = true ∨ 2 ^ 63 ≤ L) :
    ∃ e rest, Resp.Read memory (lit "$" ++ lit (Nat.repr L) ++ lit "\r\n" ++ data) =
      .ret (Value.mk "bulk" [] 0 [] []) (some e) rest := by
  rw [bulk_header, Resp.Read, List.length_cons, Resp.ReadN, if_neg (by decide), if_pos rfl]
  rcases hm with hm | hr
  · simp only [readBulk, readInteger_Itoa _ (makeslice_lt memory 1 _ (Nat.le_refl 1) hm),
      if_neg (makeslice_ne_false _ _ _ hm), Int.toNat_ofNat]
    rcases ReadFull_short data L hd with h | h <;> rw [h]
    · exact ⟨_, _, rfl⟩
    · exact ⟨_, _, rfl⟩
  · have h3 : readInteger (Itoa (L : Int) ++ 13 :: 10 :: data) =
        ⟨0, (Itoa (L : Int)).length + 2, some .ErrRange, data⟩ := by
      simp only [readInteger, readLine_line _ (Itoa_no_lf L), ParseInt_Itoa_range L hr]
    simp only [readBulk, h3]
    exact ⟨_, _, rfl⟩

theorem Read_bulk_no_memory (memory L : Nat) (data : Stream) (hr : L < 2 ^ 63)
    (hm : makeslice memory 1 (L : Int) = false) :
    Resp.Read memory (lit "$" ++ lit (Nat.repr L) ++ lit "\r\n" ++ data) = .runtimePanic := by
  rw [bulk_header, Resp.Read, List.length_cons, Resp.ReadN, if_neg (by decide), if_pos rfl]
  simp only [readBulk, readInteger_Itoa _ hr, if_pos hm]

/-- C11, the code at the failing input: on `$9223372036854775807\r\nabc`, a
declared length of `2^63 - 1` followed by three bytes, `readBulk` asks `make` for
a buffer of the declared length before it reads a payload byte, and the
process ends in the panic `makeslice: len out of range`, whatever memory it
has.  With one GiB to get, the declared length `2000000000` ends it as well.
A declared length that `make` can allocate gives the error the claim states:
`$5\r\nabc` returns `io.ErrUnexpectedEOF` and `$2\r\n` returns `io.EOF`. -/
theorem Read_huge_bulk :
    (∀ memory, Resp.Read memory (lit "$9223372036854775807\r\nabc") = .runtimePanic) ∧
    Resp.Read oneGiB (lit "$2000000000\r\nabc") = .runtimePanic ∧
    Resp.Read oneGiB (lit "$5\r\nabc") =
      .ret (Value.mk "bulk" [] 0 [] []) (some .ErrUnexpectedEOF) [] ∧
    Resp.Read oneGiB (lit "$2\r\n") = .ret (Value.mk "bulk" [] 0 [] []) (some .EOF) [] :=
  ⟨fun _ => rfl, rfl, rfl, rfl⟩

/-- C12, amended. A bulk string of declared length `L` is read with success
whenever a CRLF follows the `L` payload bytes, at once or after further bytes:
the bytes before the first CRLF after the payload, among them any CR or LF on
its own, are skipped, and everything up to and including that CRLF is
consumed.  When no CRLF follows the payload, the read fails with `io.EOF`. -/
theorem Read_bulk_terminator (memory : Nat) (b junk : GoString) (rest : Stream)
    (hb : makeslice memory 1 (b.length : Int) = true) (hj : hasCRLF junk = false) :
    Resp.Read memory
        (lit "$" ++ lit (Nat.repr b.length) ++ lit "\r\n" ++ (b ++ (junk ++ lit "\r\n" ++ rest)))
      = .ret (Value.BulkString b) none rest ∧
    Resp.Read memory (lit "$" ++ lit (Nat.repr b.length) ++ lit "\r\n" ++ (b ++ junk))
      = .ret (Value.BulkString b) (some .EOF) [] := by
  have hr := makeslice_lt memory 1 _ (Nat.le_refl 1) hb
  have h2 := makeslice_ne_false _ _ _ hb
  constructor
  · have h1 : b ++ (junk ++ lit "\r\n" ++ rest) = b ++ (junk ++ 13 :: 10 :: rest) := by
      simp [lit]
    rw [h1, bulk_header, Resp.Read, List.length_cons, Resp.ReadN, if_neg (by decide), if_pos rfl]
    simp only [readBulk, readInteger_Itoa _ hr, if_neg h2, Int.toNat_ofNat, ReadFull_append,
      readLine_noCRLF junk rest hj]
    rfl
  · rw [bulk_header, Resp.Read, List.length_cons, Resp.ReadN, if_neg (by decide), if_pos rfl]
    simp only [readBulk, readInteger_Itoa _ hr, if_neg h2, Int.toNat_ofNat, ReadFull_append,
      readLine_noCRLF_eof junk hj]
    rfl

/-- Witness of C12: the payload `abc` of declared length 3, followed by bytes that hold an
LF and a CR on their own and by CRLF; the same bytes without the CRLF give `io.EOF`. -/
theorem Read_bulk_terminator_witness :
    makeslice oneGiB 1 ((lit "abc").length : Int) = true ∧ hasCRLF (lit "X\nY\rZ") = false ∧
    Resp.Read oneGiB (lit "$3\r\nabcX\nY\rZ\r\n*0\r\n")
      = .ret (Value.BulkString (lit "abc")) none (lit "*0\r\n") ∧
    Resp.Read oneGiB (lit "$3\r\nabcX\nY\rZ")
      = .ret (Value.BulkString (lit "abc")) (some .EOF) [] :=
  ⟨by decide, by decide,
    (Read_bulk_terminator oneGiB (lit "abc") (lit "X\nY\rZ") (lit "*0\r\n") (by decide)
      (by decide)).1,
    (Read_bulk_terminator oneGiB (lit "abc") (lit "X\nY\rZ") (lit "*0\r\n") (by decide)
      (by decide)).2⟩

/-- Counterexample to C12 as stated: in `$3\r\nabcXYZ\r\n` the three payload bytes are
followed by `XYZ`, not by CRLF, and `Resp.Read` returns the bulk string `abc` with a
nil error. -/
theorem Read_bulk_junk_accepted :
    Resp.Read oneGiB (lit "$3\r\nabcXYZ\r\n") = .ret (Value.BulkString (lit "abc")) none [] :=
  rfl

/-! ## PING -/

/-- C13, the code at the failing input: `ping` on the two arguments `a` and `b`
replies the simple string `a`; and so it does on every argument list with a
first element, so `ping` never replies an error. -/
theorem ping_two_args :
    (ping [arg "a", arg "b"] Store.init).1 = Value.SimpleString (lit "a") ∧
    (ping [arg "a", arg "b"] Store.init).1 ≠ wrongArgs "ping" ∧
    (∀ (a : Value) (rest : List Value) (st : Store),
      (ping (a :: rest) st).1 = Value.SimpleString a.bulk) ∧
    (∀ st : Store, (ping [] st).1 = Value.SimpleString (lit "PONG")) :=
  ⟨rfl, fun h => absurd (congrArg Value.typ h) (by decide), fun _ _ _ => rfl, fun _ => rfl⟩

/-! ## DEL: what is left afterwards -/

theorem delLoop_get?_none {V : Type} (args : List Value) (m : GoMap V) (d : Int)
    (a : Value) (ha : a ∈ args) : (delLoop args m d).1.get? a.bulk = none := by
  rw [GoMap.get?_eq_none_iff, GoMap.keys, (delLoop_spec args m d).1]
  intro h
  obtain ⟨e, he, hek⟩ := List.mem_map.1 h
  have h2 := (List.mem_filter.1 he).2
  rw [decide_eq_true_eq, hek] at h2
  exact h2 (List.mem_map_of_mem Value.bulk ha)

theorem lookupEntry_filter_not_mem {V : Type} (ks : List GoString) (k : GoString)
    (es : List (GoString × V)) (hk : k ∉ ks) :
    lookupEntry k (es.filter (fun e => decide (e.1 ∉ ks))) = lookupEntry k es := by
  induction es with
  | nil => rfl
  | cons e es ih =>
    by_cases h : e.1 ∈ ks
    · have h1 : ¬ e.1 = k := fun h2 => hk (h2 ▸ h)
      rw [List.filter_cons_of_neg (by simp [h]), ih, lookupEntry, if_neg h1]
    · rw [List.filter_cons_of_pos (by simp [h]), lookupEntry, lookupEntry, ih]

theorem delLoop_get?_other {V : Type} (args : List Value) (m : GoMap V) (d : Int)
    (k : GoString) (hk : k ∉ args.map Value.bulk) : (delLoop args m d).1.get? k = m.get? k := by
  rw [GoMap.get?, (delLoop_spec args m d).1]
  exact lookupEntry_filter_not_mem _ k m.entries hk

/-- C14. After `del` on a non-empty argument list, no key named by an argument
is held by the string store or by the hash store, so `get` and `hgetall` of such
a key reply the null value. -/
theorem del_then_absent (range : RangeOrder) (args : List Value) (st : Store) (h : args ≠ [])
    (a : Value) (ha : a ∈ args) :
    (del args st).2.SETs.get? a.bulk = none ∧
    (del args st).2.HSETs.get? a.bulk = none ∧
    (get [a] (del args st).2).1 = Value.Null ∧
    (hgetall range [a] (del args st).2).1 = Value.Null := by
  have hl : ¬ args.length = 0 := fun h0 => h (List.length_eq_zero.1 h0)
  have h1 : (del args st).2.SETs.get? a.bulk = none := by
    simp only [del, if_neg hl]
    exact delLoop_get?_none args _ _ a ha
  have h2 : (del args st).2.HSETs.get? a.bulk = none := by
    simp only [del, if_neg hl]
    exact delLoop_get?_none args _ _ a ha
  refine ⟨h1, h2, ?_, ?_⟩
  · simp only [get, h1]
  · simp only [hgetall, h2]

/-- Witness of C14: after `SET a 1` and `HSET b f 1`, `DEL a b c` leaves `GET a` and
`HGETALL b` with the null reply. -/
theorem del_then_absent_witness :
    (get [arg "a"] (del [arg "a", arg "b", arg "c"] storeAB).2).1 = Value.Null ∧
    (hgetall GoMap.entries [arg "b"] (del [arg "a", arg "b", arg "c"] storeAB).2).1
      = Value.Null :=
  ⟨(del_then_absent GoMap.entries [arg "a", arg "b", arg "c"] storeAB (by simp) (arg "a")
      (List.mem_cons_self _ _)).2.2.1,
    (del_then_absent GoMap.entries [arg "a", arg "b", arg "c"] storeAB (by simp) (arg "b")
      (List.mem_cons_of_mem _ (List.mem_cons_self _ _))).2.2.2⟩

/-! ## The reading handlers -/

/-- C15. `ping`, `get`, `hget` and `hgetall` return the string store and the
hash store exactly as they got them, on every argument list; `hget` and `hgetall`
of an absent hash leave it absent. -/
theorem reads_leave_stores (range : RangeOrder) (args : List Value) (st : Store) :
    (ping args st).2 = st ∧ (get args st).2 = st ∧ (hget args st).2 = st ∧
    (hgetall range args st).2 = st := by
  refine ⟨?_, ?_, ?_, ?_⟩
  · cases args <;> rfl
  · unfold get
    split
    · split <;> rfl
    · rfl
  · unfold hget
    split
    · split <;> rfl
    · rfl
  · unfold hgetall
    split
    · split <;> rfl
    · rfl

/-! ## DEL: the accounting -/

theorem delLoop_len {V : Type} (args : List Value) (m : GoMap V) (d : Int) :
    (delLoop args m d).1.len +
      (m.keys.filter (fun k => decide (k ∈ args.map Value.bulk))).length = m.len := by
  rw [GoMap.len, (delLoop_spec args m d).1, GoMap.len, GoMap.keys,
    ← List.countP_eq_length_filter, ← List.countP_eq_length_filter, List.countP_map,
    List.length_eq_countP_add_countP (fun e => decide (e.1 ∈ args.map Value.bulk)) m.entries,
    Nat.add_comm]
  congr 1
  apply List.countP_congr
  intro e _
  simp

theorem filter_mem_length_le_dedup (ks args : List GoString) (hn : ks.Nodup) :
    (ks.filter (fun k => decide (k ∈ args))).length ≤ args.dedup.length := by
  apply List.Subperm.length_le
  apply List.Nodup.subperm (hn.filter _)
  intro k hk
  rw [List.mem_dedup]
  simpa using (List.mem_filter.1 hk).2

/-- C20. On a non-empty argument list, the number in the reply of `del` is the
number of entries the string store lost plus the number of entries the hash
store lost (neither store grows); either store loses at most as many entries
as the arguments name different keys, so a repeated key counts once per
store; and a key that no argument names has in both stores the value it had. -/
theorem del_accounting (args : List Value) (st : Store) (h : args ≠ []) :
    (del args st).1 = Value.SimpleString (lit (Nat.repr
      ((st.SETs.len - (del args st).2.SETs.len) +
        (st.HSETs.len - (del args st).2.HSETs.len)))) ∧
    (del args st).2.SETs.len ≤ st.SETs.len ∧
    (del args st).2.HSETs.len ≤ st.HSETs.len ∧
    st.SETs.len - (del args st).2.SETs.len ≤ (args.map Value.bulk).dedup.length ∧
    st.HSETs.len - (del args st).2.HSETs.len ≤ (args.map Value.bulk).dedup.length ∧
    (∀ k, k ∉ args.map Value.bulk →
      (del args st).2.SETs.get? k = st.SETs.get? k ∧
      (del args st).2.HSETs.get? k = st.HSETs.get? k) := by
  have hl : ¬ args.length = 0 := fun h0 => h (List.length_eq_zero.1 h0)
  have e1 : (del args st).2.SETs = (delLoop args st.SETs 0).1 := by simp only [del, if_neg hl]
  have e2 : (del args st).2.HSETs = (delLoop args st.HSETs (delLoop args st.SETs 0).2).1 := by
    simp only [del, if_neg hl]
  have l1 := delLoop_len args st.SETs 0
  have l2 := delLoop_len args st.HSETs (delLoop args st.SETs 0).2
  have d1 := filter_mem_length_le_dedup st.SETs.keys (args.map Value.bulk) st.SETs.nodup
  have d2 := filter_mem_length_le_dedup st.HSETs.keys (args.map Value.bulk) st.HSETs.nodup
  rw [← e1] at l1
  rw [← e2] at l2
  refine ⟨?_, by omega, by omega, by omega, by omega, ?_⟩
  · have c1 : st.SETs.len - (del args st).2.SETs.len =
        (st.SETs.keys.filter (fun k => decide (k ∈ args.map Value.bulk))).length := by omega
    have c2 : st.HSETs.len - (del args st).2.HSETs.len =
        (st.HSETs.keys.filter (fun k => decide (k ∈ args.map Value.bulk))).length := by omega
    rw [c1, c2, ← Itoa_eq_repr]
    simp only [del, if_neg hl, (delLoop_spec args _ _).2]
    congr 2
    push_cast
    ring
  · intro k hk
    rw [e1, e2]
    exact ⟨delLoop_get?_other args _ _ k hk, delLoop_get?_other args _ _ k hk⟩

/-- Witness of C20: `DEL a a b` after `SET a 1` and `HSET b f 1` reports 2, although `a` is
named twice. -/
theorem del_accounting_witness :
    [arg "a", arg "a", arg "b"] ≠ [] ∧
    (del [arg "a", arg "a", arg "b"] storeAB).1 = Value.SimpleString (lit (Nat.repr
      ((storeAB.SETs.len - (del [arg "a", arg "a", arg "b"] storeAB).2.SETs.len) +
        (storeAB.HSETs.len - (del [arg "a", arg "a", arg "b"] storeAB).2.HSETs.len)))) ∧
    (del [arg "a", arg "a", arg "b"] storeAB).1 = Value.SimpleString (lit "2") :=
  ⟨by simp, (del_accounting [arg "a", arg "a", arg "b"] storeAB (by simp)).1, rfl⟩

/-! ## Integers -/

theorem Marshal_head_ne_INTEGER (v : Value) : v.Marshal.head? ≠ some INTEGER := by
  cases v with
  | mk typ str num bulk array =>
    rw [Value.Marshal]
    split
    · simp [ARRAY, INTEGER]
    · split
      · simp [BULK, INTEGER]
      · split
        · simp [STRING, INTEGER]
        · split
          · simp [ERROR, INTEGER]
          · split
            · decide
            · simp

/-- C16, amended. `Value.Marshal` is defined on every value, and it has no
integer case: a value whose typ is none of `array`, `bulk`, `string`, `error` and
`null`, such as `Value{typ: "integer", num: n}`, is encoded as the empty byte
sequence, and no value at all is encoded with the leading tag `:`. -/
theorem Marshal_no_integer (n : Int) :
    (Value.Integer n).Marshal = [] ∧
    (∀ v : Value, v.Marshal.head? ≠ some INTEGER) ∧
    (∀ (typ : String) (str : GoString) (num : Int) (bulk : GoString) (array : List Value),
      typ ≠ "array" → typ ≠ "bulk" → typ ≠ "string" → typ ≠ "error" → typ ≠ "null" →
      (Value.mk typ str num bulk array).Marshal = []) := by
  refine ⟨rfl, Marshal_head_ne_INTEGER, ?_⟩
  intro typ str num bulk array h1 h2 h3 h4 h5
  rw [Value.Marshal, if_neg h1, if_neg h2, if_neg h3, if_neg h4, if_neg h5]

/-- Witness of C16: the value with typ `integer` and the number 42, and a value with the
typ `int`. -/
theorem Marshal_no_integer_witness :
    (Value.Integer 42).Marshal = [] ∧ (Value.mk "int" [] 7 [] []).Marshal = [] :=
  ⟨(Marshal_no_integer 42).1,
    (Marshal_no_integer 0).2.2 "int" [] 7 [] [] (by decide) (by decide) (by decide) (by decide)
      (by decide)⟩

/-- Counterexample to C16 as stated: the encoding of the integer 5 is empty; it is not
`:5\r\n`. -/
theorem Marshal_Integer_empty :
    (Value.Integer 5).Marshal = [] ∧ (Value.Integer 5).Marshal ≠ lit ":5\r\n" :=
  ⟨rfl, by decide⟩

/-! ## Durability -/

theorem mainLoop_aofFile (unicodeUpper : GoString → GoString) (range : RangeOrder)
    (values : List Value) (p : Process) :
    (mainLoop unicodeUpper range values p).aofFile = p.aofFile := by
  induction values generalizing p with
  | nil => rfl
  | cons value values ih =>
    rw [mainLoop, ih]
    simp only [mainBody]
    split
    · rfl
    · split
      · rfl
      · split <;> rfl

/-- C17, the code at the failing input: `main`, started with an empty
append-only file, answers `SET x 1` and `HSET h f 2` with `+OK` twice and leaves
the file empty; a process started afterwards on that file has empty stores and
answers `GET x` and `HGET h f` with the null reply. -/
theorem main_writes_no_log :
    (mainLoop id GoMap.entries
      [Value.Array [arg "SET", arg "x", arg "1"],
        Value.Array [arg "HSET", arg "h", arg "f", arg "2"]]
      (Process.start [])).written = lit "+OK\r\n+OK\r\n" ∧
    (mainLoop id GoMap.entries
      [Value.Array [arg "SET", arg "x", arg "1"],
        Value.Array [arg "HSET", arg "h", arg "f", arg "2"]]
      (Process.start [])).aofFile = [] ∧
    (mainLoop id GoMap.entries
      [Value.Array [arg "GET", arg "x"], Value.Array [arg "HGET", arg "h", arg "f"]]
      (Process.start
        (mainLoop id GoMap.entries
          [Value.Array [arg "SET", arg "x", arg "1"],
            Value.Array [arg "HSET", arg "h", arg "f", arg "2"]]
          (Process.start [])).aofFile)).written = lit "$-1\r\n$-1\r\n" :=
  ⟨rfl, rfl, rfl⟩

/-! ## Framing of requests -/

/-- C19. For a request, an array of bulk strings with any payload bytes, and
any bytes `rest` behind its encoding, `Resp.Read` returns the request with a nil
error and leaves exactly `rest` unread.  (The number of payloads and their
lengths are such that `make` can allocate them in the reading process, as
those of a request held in memory are.) -/
theorem Read_request_framing (memory : Nat) (payloads : List GoString) (rest : Stream)
    (hl : makeslice memory sizeofValue (payloads.length : Int) = true)
    (hp : ∀ b ∈ payloads, makeslice memory 1 (b.length : Int) = true) :
    Resp.Read memory ((Value.Array (payloads.map Value.BulkString)).Marshal ++ rest) =
      .ret (Value.Array (payloads.map Value.BulkString)) none rest := by
  have ht : (Value.Array (payloads.map Value.BulkString)).BulkTree memory := by
    refine Value.BulkTree.array _ (by simpa using hl) ?_
    intro v hv
    obtain ⟨b, hb, hbv⟩ := List.mem_map.1 hv
    rw [← hbv]
    exact Value.BulkTree.bulk b (hp b hb)
  exact ReadN_Marshal memory _ ht _ rest (by simp; omega)

/-- Witness of C19: the request `SET k` with a value that holds CR, LF and a `$`, and an
empty payload, followed by the request `GET k`; the second request is read from
what the first read leaves. -/
theorem Read_request_framing_witness :
    Resp.Read oneGiB
        ((Value.Array ([lit "SET", lit "k", lit "a\r\n$b", lit ""].map Value.BulkString)).Marshal
          ++ (Value.Array ([lit "GET", lit "k"].map Value.BulkString)).Marshal) =
      .ret (Value.Array ([lit "SET", lit "k", lit "a\r\n$b", lit ""].map Value.BulkString)) none
        (Value.Array ([lit "GET", lit "k"].map Value.BulkString)).Marshal ∧
    Resp.Read oneGiB ((Value.Array ([lit "GET", lit "k"].map Value.BulkString)).Marshal ++ []) =
      .ret (Value.Array ([lit "GET", lit "k"].map Value.BulkString)) none [] :=
  ⟨Read_request_framing oneGiB [lit "SET", lit "k", lit "a\r\n$b", lit ""] _ (by decide)
      (by decide),
    Read_request_framing oneGiB [lit "GET", lit "k"] [] (by decide) (by decide)⟩

end MyRedis
